import Mathlib

/-!
Shallow embedding of `src/list.hpp` (namespace `csc`): a generic doubly
linked list that keeps one sentinel node immediately after the last real
element whenever the list is non-empty.

Pointers are modelled as `Option Nat` (node ids, `none` = `nullptr`).  The
nodes owned by one list form a heap: an association list from ids to node
records plus a fresh-id counter.  Every pointer dereference goes through a
heap lookup, and failures (dereferencing a null pointer or a freed node)
propagate as `none`, modelling the undefined behaviour of the C++ source.
-/

set_option maxHeartbeats 1000000

namespace Csc

/-- Source struct `List<T>::Node`: `next_`, `prev_` links and stored `data_`. -/
structure Node (T : Type) where
  next_ : Option Nat
  prev_ : Option Nat
  data_ : T
  deriving DecidableEq, Repr

variable {T : Type}

/-- First-match lookup in an association list of heap cells. -/
def lookupL : List (Nat × Node T) → Nat → Option (Node T)
  | [], _ => none
  | pr :: rest, k => if pr.1 = k then some pr.2 else lookupL rest k

/-- Overwrite the cell at key `k` (no-op if the key is absent). -/
def writeL (l : List (Nat × Node T)) (k : Nat) (n : Node T) : List (Nat × Node T) :=
  l.map fun pr => if pr.1 = k then (k, n) else pr

/-- Remove the cell at key `k` (like `delete` on that node). -/
def freeL (l : List (Nat × Node T)) (k : Nat) : List (Nat × Node T) :=
  l.filter fun pr => pr.1 != k

/-- The heap owned by a single list: cells plus a counter of fresh ids. -/
structure Heap (T : Type) where
  mem : List (Nat × Node T)
  fresh : Nat
  deriving DecidableEq, Repr

def Heap.lookupN (h : Heap T) (k : Nat) : Option (Node T) := lookupL h.mem k

def Heap.write (h : Heap T) (k : Nat) (n : Node T) : Heap T := ⟨writeL h.mem k n, h.fresh⟩

def Heap.free (h : Heap T) (k : Nat) : Heap T := ⟨freeL h.mem k, h.fresh⟩

/-- Model of `new Node(...)`: returns the new id and the extended heap. -/
def Heap.alloc (h : Heap T) (n : Node T) : Nat × Heap T :=
  (h.fresh, ⟨(h.fresh, n) :: h.mem, h.fresh + 1⟩)

/-- Source class `csc::List<T>`: its `head_`, `tail_`, `size_` members plus
the heap of nodes it owns. -/
structure CList (T : Type) where
  heap : Heap T
  head_ : Option Nat
  tail_ : Option Nat
  size_ : Nat
  deriving DecidableEq, Repr

/-- Source `List()` default constructor: `head_ = tail_ = nullptr, size_ = 0`. -/
def emptyCL : CList T := ⟨⟨[], 0⟩, none, none, 0⟩

/-- Source `bool empty() const` : `head_ == nullptr`. -/
def empty (s : CList T) : Bool := s.head_.isNone

/-- Source `size_type size() const` : returns `size_`. -/
def size (s : CList T) : Nat := s.size_

/-- Source `iterator begin() const` : `iterator(head_)`. -/
def begin (s : CList T) : Option Nat := s.head_

/-- Source `iterator end() const` : `iterator(tail_ ? tail_->next_ : nullptr)`.
Reading `tail_->next_` through a dangling `tail_` is a fault (`none`). -/
def endIter (s : CList T) : Option (Option Nat) :=
  match s.tail_ with
  | none => some none
  | some tid => (s.heap.lookupN tid).map fun n => n.next_

/-- Source `void push_back(T data)`.  In the empty case it allocates the real
node and a sentinel; otherwise the old sentinel becomes the new tail (its
`data_` is overwritten) and a fresh sentinel is allocated after it. -/
def push_back [Inhabited T] (s : CList T) (d : T) : Option (CList T) :=
  match s.head_ with
  | none =>
      let a1 := s.heap.alloc ⟨none, none, d⟩
      let a2 := a1.2.alloc ⟨none, some a1.1, (default : T)⟩
      match a2.2.lookupN a1.1 with
      | none => none
      | some tn =>
          some ⟨a2.2.write a1.1 { tn with next_ := some a2.1 },
                some a1.1, some a1.1, s.size_ + 1⟩
  | some _ =>
      match s.tail_ with
      | none => none
      | some tid =>
        match s.heap.lookupN tid with
        | none => none
        | some tn =>
          match tn.next_ with
          | none => none
          | some tid2 =>
            match s.heap.lookupN tid2 with
            | none => none
            | some tn2 =>
              let h1 := s.heap.write tid2 { tn2 with data_ := d }
              let a := h1.alloc ⟨none, some tid2, (default : T)⟩
              match a.2.lookupN tid2 with
              | none => none
              | some tn3 =>
                some ⟨a.2.write tid2 { tn3 with next_ := some a.1 },
                      s.head_, some tid2, s.size_ + 1⟩

/-- Source `void push_front(T data)`.  Empty case bootstraps exactly like
`push_back`; otherwise a new node is linked in before the current head. -/
def push_front [Inhabited T] (s : CList T) (d : T) : Option (CList T) :=
  match s.head_ with
  | none =>
      let a1 := s.heap.alloc ⟨none, none, d⟩
      let a2 := a1.2.alloc ⟨none, some a1.1, (default : T)⟩
      match a2.2.lookupN a1.1 with
      | none => none
      | some tn =>
          some ⟨a2.2.write a1.1 { tn with next_ := some a2.1 },
                some a1.1, some a1.1, s.size_ + 1⟩
  | some hid =>
      let a := s.heap.alloc ⟨some hid, none, d⟩
      match a.2.lookupN hid with
      | none => none
      | some hn =>
          some ⟨a.2.write hid { hn with prev_ := some a.1 },
                some a.1, s.tail_, s.size_ + 1⟩

theorem length_freeL_lt (l : List (Nat × Node T)) (k : Nat) (n : Node T)
    (h : lookupL l k = some n) : (freeL l k).length < l.length := by
  induction l with
  | nil => simp [lookupL] at h
  | cons pr rest ih =>
    by_cases hk : pr.1 = k
    · have hb : (pr.1 != k) = false := by simp [hk]
      have hle : (freeL rest k).length ≤ rest.length := List.length_filter_le _ _
      have hf : freeL (pr :: rest) k = freeL rest k := by
        simp [freeL, List.filter_cons, hb]
      rw [hf, List.length_cons]
      omega
    · have hb : (pr.1 != k) = true := by simp [hk]
      have h' : lookupL rest k = some n := by
        simpa [lookupL, hk] using h
      have := ih h'
      simp only [freeL, List.filter_cons, hb, if_true, List.length_cons]
      simpa [freeL] using Nat.succ_lt_succ this

/-- Fuel-bounded model of the loop of `void clear()`:
`while (head_ != nullptr) delete std::exchange(head_, head_->next_);`.
Each successful iteration frees one live cell, so the `h.mem.length + 1`
fuel supplied by `clearLoop` can never run out before the loop either
reaches a null pointer or faults on a dangling one; fuel exhaustion would
itself be a fault (`none`). -/
def clearLoopF : Nat → Heap T → Option Nat → Option (Heap T)
  | _, h, none => some h
  | 0, _, some _ => none
  | fuel + 1, h, some id =>
    match h.lookupN id with
    | none => none
    | some n => clearLoopF fuel (h.free id) n.next_

/-- The `clear` loop, with always-sufficient fuel. -/
def clearLoop (h : Heap T) (cur : Option Nat) : Option (Heap T) :=
  clearLoopF (h.mem.length + 1) h cur

/-- Source `void clear()`: runs the loop, then `head_ = tail_ = nullptr`,
`size_ = 0`. -/
def clear (s : CList T) : Option (CList T) :=
  (clearLoop s.heap s.head_).map fun h => ⟨h, none, none, 0⟩

/-- Source `iterator erase(iterator pos)`.  Returns the resulting iterator
(the node pointer it wraps) together with the new list state.  Note that the
source never updates `head_` or `tail_` in the unlink branch, and `--size_`
on the unsigned counter is modelled by `Nat` subtraction (the wrapping case
`size_ == 0` is unreachable: the unlink branch faults first on any list
whose heap has no nodes). -/
def erase (s : CList T) (pos : Option Nat) : Option (Option Nat × CList T) :=
  if size s = 1 then
    (clear s).map fun s0 => (s0.head_, s0)
  else
    match pos with
    | none => none
    | some nid =>
      match s.heap.lookupN nid with
      | none => none
      | some node =>
        match node.prev_ with
        | none => none
        | some pid =>
          match s.heap.lookupN pid with
          | none => none
          | some pn =>
            let h1 := s.heap.write pid { pn with next_ := node.next_ }
            match h1.lookupN nid with
            | none => none
            | some node1 =>
              match node1.next_ with
              | none => none
              | some xid =>
                match h1.lookupN xid with
                | none => none
                | some xn =>
                  let h2 := h1.write xid { xn with prev_ := node1.prev_ }
                  match h2.lookupN nid with
                  | none => none
                  | some node2 =>
                    some (node2.next_, ⟨h2.free nid, s.head_, s.tail_, s.size_ - 1⟩)

/-- Forward iteration `for (it = cur; it != stop; ++it) collect *it`, with
fuel bounding the number of steps (fuel exhaustion models divergence as a
fault).  Stepping reads `node_->next_` through the heap. -/
def iterCollect (h : Heap T) : Nat → Option Nat → Option Nat → Option (List T)
  | 0, cur, stop => if cur = stop then some [] else none
  | fuel + 1, cur, stop =>
      if cur = stop then some []
      else
        match cur with
        | none => none
        | some id =>
          match h.lookupN id with
          | none => none
          | some n => (iterCollect h fuel n.next_ stop).map fun rest => n.data_ :: rest

/-- Forward iteration of a whole list from `begin()` to `end()`, collecting
the visited values. -/
def traverse (s : CList T) : Option (List T) :=
  (endIter s).bind fun e => iterCollect s.heap (size s + 1) (begin s) e

/-- A sequence of `push_back` calls starting from a default-constructed list
(also the model of the `initializer_list` constructor). -/
def buildB [Inhabited T] (vs : List T) : Option (CList T) :=
  vs.foldlM push_back emptyCL

/-- A sequence of `push_front` calls starting from a default-constructed list. -/
def buildF [Inhabited T] (vs : List T) : Option (CList T) :=
  vs.foldlM push_front emptyCL

/-- Loop of the iterator-range constructor
`for (auto it = begin; it != end; ++it) push_back(*it);`, reading from the
source list's heap and pushing onto the list under construction. -/
def fromRangeLoop [Inhabited T] (srcH : Heap T) :
    Nat → Option Nat → Option Nat → CList T → Option (CList T)
  | 0, cur, stop, acc => if cur = stop then some acc else none
  | fuel + 1, cur, stop, acc =>
      if cur = stop then some acc
      else
        match cur with
        | none => none
        | some id =>
          match srcH.lookupN id with
          | none => none
          | some n => (push_back acc n.data_).bind (fromRangeLoop srcH fuel n.next_ stop)

/-- Source `List(iterator begin, iterator end)` applied to
`(other.begin(), other.end())`; also the model of the copy constructor,
whose range-based `for` performs the same traversal and `push_back` calls. -/
def fromRange [Inhabited T] (src : CList T) : Option (CList T) :=
  (endIter src).bind fun e => fromRangeLoop src.heap (size src + 1) (begin src) e emptyCL

/-- Source copy assignment for distinct objects: copy-and-swap, so the new
value of the destination is a deep copy of the source (the old destination
state moves into the temporary and is destroyed). -/
def copy_assign [Inhabited T] (_dst src : CList T) : Option (CList T) :=
  fromRange src

/-- Source move constructor: swaps `head_`, `tail_`, `size_` with a
default-constructed object and then nulls the source's `head_`/`tail_`.
Heap ownership follows the transferred pointers: the destination owns all of
the source's nodes, the source owns none.  Returns (destination, source). -/
def move_ctor (src : CList T) : CList T × CList T :=
  (⟨src.heap, src.head_, src.tail_, src.size_⟩, ⟨⟨[], 0⟩, none, none, 0⟩)

/-- Source move assignment for distinct objects: swaps `head_`, `tail_`,
`size_` between destination and source; heap ownership follows the swapped
pointers.  Returns (destination, source) after the swap. -/
def move_assign (dst src : CList T) : CList T × CList T :=
  (⟨src.heap, src.head_, src.tail_, src.size_⟩, ⟨dst.heap, dst.head_, dst.tail_, dst.size_⟩)

/-! ## Association-list heap lemmas -/

@[simp] theorem lookupL_nil (k : Nat) : lookupL ([] : List (Nat × Node T)) k = none := rfl

@[simp] theorem lookupL_cons_self (k : Nat) (n : Node T) (l : List (Nat × Node T)) :
    lookupL ((k, n) :: l) k = some n := by simp [lookupL]

theorem lookupL_cons_ne (k k' : Nat) (n : Node T) (l : List (Nat × Node T))
    (h : k' ≠ k) : lookupL ((k, n) :: l) k' = lookupL l k' := by
  simp [lookupL, Ne.symm h]

theorem mem_keys_of_lookupL (l : List (Nat × Node T)) (k : Nat) (n : Node T)
    (h : lookupL l k = some n) : k ∈ l.map Prod.fst := by
  induction l with
  | nil => simp [lookupL] at h
  | cons pr rest ih =>
    by_cases hk : pr.1 = k
    · simp [hk]
    · simp only [lookupL, hk, if_false] at h
      simpa using Or.inr (ih h)

theorem lookupL_writeL_self (l : List (Nat × Node T)) (k : Nat) (m n : Node T)
    (h : lookupL l k = some m) : lookupL (writeL l k n) k = some n := by
  induction l with
  | nil => simp [lookupL] at h
  | cons pr rest ih =>
    by_cases hk : pr.1 = k
    · simp [writeL, hk, lookupL]
    · simp only [lookupL, hk, if_false] at h
      simpa [writeL, hk, lookupL] using ih h

theorem lookupL_writeL_ne (l : List (Nat × Node T)) (k k' : Nat) (n : Node T)
    (h : k' ≠ k) : lookupL (writeL l k n) k' = lookupL l k' := by
  induction l with
  | nil => simp [writeL]
  | cons pr rest ih =>
    by_cases hk : pr.1 = k
    · have h1 : writeL (pr :: rest) k n = (k, n) :: writeL rest k n := by
        simp [writeL, hk]
      rw [h1, lookupL_cons_ne _ _ _ _ h, ih]
      cases pr with
      | mk a b =>
        have hak : ¬(a = k') := fun hc => h (by rw [← hc]; exact hk)
        simp only [lookupL]
        rw [if_neg hak]
    · have h1 : writeL (pr :: rest) k n = pr :: writeL rest k n := by
        simp [writeL, hk]
      rw [h1]
      cases pr with
      | mk a b =>
        by_cases ha : a = k'
        · simp [lookupL, ha]
        · simp only [lookupL]
          rw [if_neg ha, if_neg ha, ih]

@[simp] theorem keys_writeL (l : List (Nat × Node T)) (k : Nat) (n : Node T) :
    (writeL l k n).map Prod.fst = l.map Prod.fst := by
  induction l with
  | nil => rfl
  | cons pr rest ih =>
    by_cases hk : pr.1 = k
    · simp [writeL, hk] at ih ⊢
      simpa [writeL] using ih
    · simp [writeL, hk] at ih ⊢
      simpa [writeL] using ih

theorem lookupL_freeL_ne (l : List (Nat × Node T)) (k k' : Nat)
    (h : k' ≠ k) : lookupL (freeL l k) k' = lookupL l k' := by
  induction l with
  | nil => simp [freeL]
  | cons pr rest ih =>
    by_cases hk : pr.1 = k
    · have hb : (pr.1 != k) = false := by simp [hk]
      have hne : pr.1 ≠ k' := by rw [hk]; exact Ne.symm h
      have : freeL (pr :: rest) k = freeL rest k := by simp [freeL, List.filter_cons, hb]
      rw [this, ih]
      cases pr with
      | mk a b => simp only [lookupL]; simp_all
    · have hb : (pr.1 != k) = true := by simp [hk]
      have : freeL (pr :: rest) k = pr :: freeL rest k := by
        simp [freeL, List.filter_cons, hb]
      rw [this]
      cases pr with
      | mk a b =>
        by_cases ha : a = k'
        · simp [lookupL, ha]
        · simp only [lookupL]
          rw [if_neg, if_neg, ih] <;> simp [ha]

theorem mem_of_mem_freeL (l : List (Nat × Node T)) (k : Nat) (pr : Nat × Node T)
    (h : pr ∈ freeL l k) : pr ∈ l := List.mem_of_mem_filter h

/-! ## The chain predicate: ids linked in order, ending at the sentinel -/

/-- The id a node's `next_` must carry when the rest of the real chain is
`ids` and the sentinel is `sent`. -/
def nextId (ids : List Nat) (sent : Nat) : Nat := ids.headD sent

/-- The `prev_` pointer of the sentinel given the chain before it. -/
def lastPtr (p : Option Nat) (ids : List Nat) : Option Nat :=
  match ids.getLast? with
  | none => p
  | some x => some x

/-- `linked h prevp ids vs sent`: starting with back-pointer `prevp`, the
nodes `ids` hold the values `vs` and are doubly linked in order, the last
one pointing to the sentinel `sent`, whose node has a default value, a null
`next_` and a `prev_` to the last real node. -/
def linked [Inhabited T] (h : Heap T) : Option Nat → List Nat → List T → Nat → Prop
  | prevp, [], vs, sent => vs = [] ∧ h.lookupN sent = some ⟨none, prevp, (default : T)⟩
  | prevp, id :: ids, vs, sent =>
      ∃ v vs2, vs = v :: vs2 ∧
        h.lookupN id = some ⟨some (nextId ids sent), prevp, v⟩ ∧
        linked h (some id) ids vs2 sent

@[simp] theorem nextId_nil (s : Nat) : nextId [] s = s := rfl

@[simp] theorem nextId_cons (a : Nat) (l : List Nat) (s : Nat) : nextId (a :: l) s = a := rfl

theorem nextId_concat (l : List Nat) (x y : Nat) : nextId (l ++ [x]) y = nextId l x := by
  cases l <;> rfl

theorem nextId_of_headq (l : List Nat) (a s : Nat) (h : l.head? = some a) :
    nextId l s = a := by
  cases l <;> simp_all [nextId]

@[simp] theorem lastPtr_nil (p : Option Nat) : lastPtr p [] = p := rfl

theorem lastPtr_cons (p : Option Nat) (a : Nat) (l : List Nat) :
    lastPtr p (a :: l) = lastPtr (some a) l := by
  cases l with
  | nil => rfl
  | cons b l2 =>
    have hne : (b :: l2) ≠ ([] : List Nat) := by simp
    obtain ⟨y, hy⟩ := Option.isSome_iff_exists.mp (List.getLast?_isSome.mpr hne)
    simp [lastPtr, List.getLast?_cons_cons, hy]

theorem lastPtr_of_getLastq (p : Option Nat) (l : List Nat) (a : Nat)
    (h : l.getLast? = some a) : lastPtr p l = some a := by
  simp [lastPtr, h]

theorem linked_length [Inhabited T] (h : Heap T) :
    ∀ (ids : List Nat) (prevp : Option Nat) (vs : List T) (sent : Nat),
      linked h prevp ids vs sent → ids.length = vs.length := by
  intro ids
  induction ids with
  | nil => intro prevp vs sent hl; obtain ⟨hv, -⟩ := hl; simp [hv]
  | cons a rest ih =>
    intro prevp vs sent hl
    obtain ⟨v, vs2, rfl, -, hrest⟩ := hl
    simpa using ih _ _ _ hrest

theorem linked_lookup_mem [Inhabited T] (h : Heap T) :
    ∀ (ids : List Nat) (prevp : Option Nat) (vs : List T) (sent : Nat),
      linked h prevp ids vs sent → ∀ id ∈ ids, ∃ n, h.lookupN id = some n := by
  intro ids
  induction ids with
  | nil => intro _ _ _ _ id hid; simp at hid
  | cons a rest ih =>
    intro prevp vs sent hl id hid
    obtain ⟨v, vs2, rfl, ha, hrest⟩ := hl
    rcases List.mem_cons.mp hid with rfl | hmem
    · exact ⟨_, ha⟩
    · exact ih _ _ _ hrest id hmem

theorem linked_sentinel [Inhabited T] (h : Heap T) :
    ∀ (ids : List Nat) (prevp : Option Nat) (vs : List T) (sent : Nat),
      linked h prevp ids vs sent →
      h.lookupN sent = some ⟨none, lastPtr prevp ids, (default : T)⟩ := by
  intro ids
  induction ids with
  | nil => intro prevp vs sent hl; simpa using hl.2
  | cons a rest ih =>
    intro prevp vs sent hl
    obtain ⟨v, vs2, rfl, -, hrest⟩ := hl
    rw [lastPtr_cons]
    exact ih _ _ _ hrest

theorem linked_congr [Inhabited T] (h h' : Heap T) :
    ∀ (ids : List Nat) (prevp : Option Nat) (vs : List T) (sent : Nat),
      (∀ id ∈ ids, h'.lookupN id = h.lookupN id) →
      h'.lookupN sent = h.lookupN sent →
      linked h prevp ids vs sent → linked h' prevp ids vs sent := by
  intro ids
  induction ids with
  | nil =>
    intro prevp vs sent _ hs hl
    exact ⟨hl.1, by rw [hs]; exact hl.2⟩
  | cons a rest ih =>
    intro prevp vs sent hc hs hl
    obtain ⟨v, vs2, rfl, ha, hrest⟩ := hl
    refine ⟨v, vs2, rfl, ?_, ?_⟩
    · rw [hc a (by simp)]; exact ha
    · exact ih _ _ _ (fun id hid => hc id (by simp [hid])) hs hrest

theorem linked_last [Inhabited T] (h : Heap T) :
    ∀ (ids : List Nat) (prevp : Option Nat) (vs : List T) (sent last : Nat),
      linked h prevp ids vs sent → ids.getLast? = some last →
      ∃ pl vl, h.lookupN last = some ⟨some sent, pl, vl⟩ := by
  intro ids
  induction ids with
  | nil => intro _ _ _ _ hl hlast; simp at hlast
  | cons a rest ih =>
    intro prevp vs sent last hl hlast
    obtain ⟨v, vs2, rfl, ha, hrest⟩ := hl
    cases rest with
    | nil =>
      simp at hlast
      subst hlast
      exact ⟨prevp, v, by simpa using ha⟩
    | cons b rest2 =>
      rw [List.getLast?_cons_cons] at hlast
      exact ih _ _ _ _ hrest hlast

theorem linked_append [Inhabited T] (h h' : Heap T) :
    ∀ (ids : List Nat) (prevp : Option Nat) (vs : List T) (sent : Nat) (v : T) (sent2 : Nat),
      linked h prevp ids vs sent →
      (∀ id ∈ ids, h'.lookupN id = h.lookupN id) →
      h'.lookupN sent = some ⟨some sent2, lastPtr prevp ids, v⟩ →
      h'.lookupN sent2 = some ⟨none, some sent, (default : T)⟩ →
      linked h' prevp (ids ++ [sent]) (vs ++ [v]) sent2 := by
  intro ids
  induction ids with
  | nil =>
    intro prevp vs sent v sent2 hl _ hsent hsent2
    obtain ⟨rfl, -⟩ := hl
    exact ⟨v, [], rfl, by simpa using hsent, rfl, hsent2⟩
  | cons a rest ih =>
    intro prevp vs sent v sent2 hl hc hsent hsent2
    obtain ⟨w, vs2, rfl, ha, hrest⟩ := hl
    refine ⟨w, vs2 ++ [v], rfl, ?_, ?_⟩
    · rw [hc a (by simp)]
      show h.lookupN a = some ⟨some (nextId (rest ++ [sent]) sent2), prevp, w⟩
      rw [nextId_concat]
      exact ha
    · exact ih _ _ _ _ _ hrest (fun id hid => hc id (by simp [hid]))
        (by rwa [lastPtr_cons] at hsent) hsent2

theorem linked_cons_reprev [Inhabited T] (h h' : Heap T)
    (p p' : Option Nat) (a : Nat) (ids2 : List Nat) (vs : List T) (sent : Nat)
    (hl : linked h p (a :: ids2) vs sent)
    (ha : ∀ nxt pv w, h.lookupN a = some ⟨nxt, pv, w⟩ → h'.lookupN a = some ⟨nxt, p', w⟩)
    (hrest : ∀ id ∈ ids2, h'.lookupN id = h.lookupN id)
    (hsent : h'.lookupN sent = h.lookupN sent) :
    linked h' p' (a :: ids2) vs sent := by
  obtain ⟨v, vs2, rfl, hna, hrest'⟩ := hl
  exact ⟨v, vs2, rfl, ha _ _ _ hna, linked_congr h h' ids2 _ _ _ hrest hsent hrest'⟩

/-! ## Well-formedness of a list state -/

/-- Every allocated id is below the fresh counter. -/
def freshBound (h : Heap T) : Prop := ∀ pr ∈ h.mem, pr.1 < h.fresh

/-- `Wf s vs`: the state `s` is a well-formed `csc::List` representing the
value sequence `vs`.  Either the list is empty (`head_ = tail_ = nullptr`,
no nodes at all), or there are node ids `ids` holding `vs` followed by one
sentinel `sent`, with `head_`/`tail_` at the first/last real node and the
heap containing exactly those nodes. -/
def Wf [Inhabited T] (s : CList T) (vs : List T) : Prop :=
  freshBound s.heap ∧ s.size_ = vs.length ∧
  ((vs = [] ∧ s.head_ = none ∧ s.tail_ = none ∧ s.heap.mem = []) ∨
   (∃ ids sent, vs ≠ [] ∧ ids ≠ [] ∧
      s.head_ = ids.head? ∧ s.tail_ = ids.getLast? ∧
      (ids ++ [sent]).Nodup ∧
      (s.heap.mem.map Prod.fst).Perm (ids ++ [sent]) ∧
      linked s.heap none ids vs sent))

theorem lt_fresh_of_lookupN (h : Heap T) (k : Nat) (n : Node T)
    (fb : freshBound h) (hk : h.lookupN k = some n) : k < h.fresh := by
  have hmem := mem_keys_of_lookupL h.mem k n hk
  obtain ⟨pr, hpr, hfst⟩ := List.mem_map.mp hmem
  exact hfst ▸ fb pr hpr

theorem wf_emptyCL [Inhabited T] : Wf (emptyCL : CList T) [] := by
  refine ⟨?_, rfl, Or.inl ⟨rfl, rfl, rfl, rfl⟩⟩
  intro pr hpr
  simp [emptyCL] at hpr

/-! ## Preservation of well-formedness by the push operations -/

theorem headq_append_left (l l' : List Nat) (h : l ≠ []) : (l ++ l').head? = l.head? := by
  cases l with
  | nil => exact absurd rfl h
  | cons a t => rfl

theorem getLastq_concat (l : List Nat) (a : Nat) : (l ++ [a]).getLast? = some a := by
  induction l with
  | nil => rfl
  | cons b t ih =>
    cases t with
    | nil => simp [List.getLast?_cons_cons]
    | cons c t2 =>
      simp only [List.cons_append, List.getLast?_cons_cons]
      simpa using ih

/-- Computation of `push_back` on an empty list (the bootstrap branch). -/
theorem push_back_eq_empty [Inhabited T] (s : CList T) (v : T)
    (hhead : s.head_ = none) (hmem : s.heap.mem = []) :
    push_back s v = some ⟨⟨[(s.heap.fresh + 1, ⟨none, some s.heap.fresh, (default : T)⟩),
                            (s.heap.fresh, ⟨some (s.heap.fresh + 1), none, v⟩)],
                           s.heap.fresh + 2⟩,
                          some s.heap.fresh, some s.heap.fresh, s.size_ + 1⟩ := by
  simp [push_back, hhead, Heap.alloc, Heap.lookupN, Heap.write, hmem, lookupL, writeL,
    Nat.succ_ne_self]

/-- Computation of `push_front` on an empty list (identical bootstrap). -/
theorem push_front_eq_empty [Inhabited T] (s : CList T) (v : T)
    (hhead : s.head_ = none) (hmem : s.heap.mem = []) :
    push_front s v = some ⟨⟨[(s.heap.fresh + 1, ⟨none, some s.heap.fresh, (default : T)⟩),
                             (s.heap.fresh, ⟨some (s.heap.fresh + 1), none, v⟩)],
                            s.heap.fresh + 2⟩,
                           some s.heap.fresh, some s.heap.fresh, s.size_ + 1⟩ := by
  simp [push_front, hhead, Heap.alloc, Heap.lookupN, Heap.write, hmem, lookupL, writeL,
    Nat.succ_ne_self]

/-- The bootstrap result is well-formed and holds exactly `[v]`. -/
theorem wf_bootstrap [Inhabited T] (s : CList T) (v : T)
    (hsize : s.size_ = 0) :
    Wf (⟨⟨[(s.heap.fresh + 1, ⟨none, some s.heap.fresh, (default : T)⟩),
           (s.heap.fresh, ⟨some (s.heap.fresh + 1), none, v⟩)],
          s.heap.fresh + 2⟩,
         some s.heap.fresh, some s.heap.fresh, s.size_ + 1⟩ : CList T) [v] := by
  set f := s.heap.fresh with hf
  refine ⟨?_, by simp [hsize], Or.inr ⟨[f], f + 1, by simp, by simp, rfl, rfl, ?_, ?_, ?_⟩⟩
  · intro pr hpr
    simp only [List.mem_cons, List.not_mem_nil, or_false] at hpr
    rcases hpr with h | h
    · subst h; show f + 1 < f + 2; omega
    · subst h; show f < f + 2; omega
  · simp
  · simp [List.Perm.swap]
  · refine ⟨v, [], rfl, ?_, rfl, ?_⟩
    · simp [Heap.lookupN, lookupL, Nat.succ_ne_self]
    · simp [Heap.lookupN, lookupL]

/-- Computation of `push_back` on a non-empty well-linked list: the old
sentinel `sent` becomes the new tail and a fresh sentinel is allocated. -/
theorem push_back_eq_nonempty [Inhabited T] (s : CList T) (v : T)
    (hd last sent : Nat) (pl : Option Nat) (vl : T)
    (hhead : s.head_ = some hd) (htail : s.tail_ = some last)
    (hL1 : s.heap.lookupN last = some ⟨some sent, pl, vl⟩)
    (hL2 : s.heap.lookupN sent = some ⟨none, some last, (default : T)⟩)
    (hsne : sent ≠ s.heap.fresh) :
    push_back s v = some
      ⟨((s.heap.write sent ⟨none, some last, v⟩).alloc
          ⟨none, some sent, (default : T)⟩).2.write sent
            ⟨some s.heap.fresh, some last, v⟩,
       s.head_, some sent, s.size_ + 1⟩ := by
  have hA : ((s.heap.write sent ⟨none, some last, v⟩).alloc
      ⟨none, some sent, (default : T)⟩).2.lookupN sent = some ⟨none, some last, v⟩ := by
    show lookupL ((s.heap.fresh, _) :: writeL s.heap.mem sent _) sent = _
    rw [lookupL_cons_ne _ _ _ _ hsne]
    exact lookupL_writeL_self _ _ _ _ hL2
  simp only [push_back, hhead, htail, hL1, hL2, hA]
  simp [Heap.alloc, Heap.write]

/-- `push_back` on a well-formed list succeeds and appends the value. -/
theorem push_back_wf [Inhabited T] (s : CList T) (vs : List T) (v : T) (hw : Wf s vs) :
    ∃ s', push_back s v = some s' ∧ Wf s' (vs ++ [v]) := by
  obtain ⟨fb, hsize, hcase⟩ := hw
  rcases hcase with ⟨hvs, hhead, htail, hmem⟩ | ⟨ids, sent, hvs, hids, hhead, htail, hnd, hperm, hlink⟩
  · subst hvs
    refine ⟨_, push_back_eq_empty s v hhead hmem, ?_⟩
    simpa using wf_bootstrap s v hsize
  · -- non-empty case
    obtain ⟨hd, hhd⟩ := Option.isSome_iff_exists.mp (List.head?_isSome.mpr hids)
    obtain ⟨last, hlast⟩ := Option.isSome_iff_exists.mp (List.getLast?_isSome.mpr hids)
    have hhead2 : s.head_ = some hd := by rw [hhead, hhd]
    have htail2 : s.tail_ = some last := by rw [htail, hlast]
    obtain ⟨pl, vl, hL1⟩ := linked_last s.heap ids none vs sent last hlink hlast
    have hL2 : s.heap.lookupN sent = some ⟨none, some last, (default : T)⟩ := by
      have := linked_sentinel s.heap ids none vs sent hlink
      rwa [lastPtr_of_getLastq _ _ _ hlast] at this
    have hsnotin : sent ∉ ids := by
      have hdisj := (List.nodup_append.mp hnd).2.2
      intro hmem2
      exact hdisj hmem2 (by simp)
    have hslt : sent < s.heap.fresh := lt_fresh_of_lookupN _ _ _ fb hL2
    have hsne : sent ≠ s.heap.fresh := Nat.ne_of_lt hslt
    have hid_lt : ∀ id ∈ ids, id < s.heap.fresh := by
      intro id hid
      obtain ⟨n, hn⟩ := linked_lookup_mem s.heap ids none vs sent hlink id hid
      exact lt_fresh_of_lookupN _ _ _ fb hn
    set f := s.heap.fresh with hfdef
    set h1 : Heap T := s.heap.write sent ⟨none, some last, v⟩ with hh1
    set h2 : Heap T := (h1.alloc ⟨none, some sent, (default : T)⟩).2 with hh2
    set h3 : Heap T := h2.write sent ⟨some f, some last, v⟩ with hh3
    have hmemh2 : h2.mem = (f, (⟨none, some sent, (default : T)⟩ : Node T)) :: h1.mem := rfl
    have hfresh3 : h3.fresh = f + 1 := rfl
    -- lookups in h3
    have hcong : ∀ id ∈ ids, h3.lookupN id = s.heap.lookupN id := by
      intro id hid
      have hidne_sent : id ≠ sent := fun hc => hsnotin (hc ▸ hid)
      have hidne_f : id ≠ f := Nat.ne_of_lt (hid_lt id hid)
      show lookupL (writeL h2.mem sent _) id = _
      rw [lookupL_writeL_ne _ _ _ _ hidne_sent, hmemh2,
        lookupL_cons_ne _ _ _ _ hidne_f]
      exact lookupL_writeL_ne _ _ _ _ hidne_sent
    have hA : h2.lookupN sent = some ⟨none, some last, v⟩ := by
      show lookupL ((f, _) :: h1.mem) sent = _
      rw [lookupL_cons_ne _ _ _ _ hsne]
      exact lookupL_writeL_self _ _ _ _ hL2
    have hsent3 : h3.lookupN sent = some ⟨some f, some last, v⟩ :=
      lookupL_writeL_self _ _ _ _ hA
    have hf3 : h3.lookupN f = some ⟨none, some sent, (default : T)⟩ := by
      have hfne : f ≠ sent := Ne.symm hsne
      show lookupL (writeL h2.mem sent _) f = _
      rw [lookupL_writeL_ne _ _ _ _ hfne, hmemh2]
      exact lookupL_cons_self _ _ _
    -- keys of h3
    have hkeys3 : h3.mem.map Prod.fst = f :: s.heap.mem.map Prod.fst := by
      show (writeL h2.mem sent _).map Prod.fst = _
      rw [keys_writeL, hmemh2, List.map_cons]
      show f :: (writeL s.heap.mem sent _).map Prod.fst = _
      rw [keys_writeL]
    have hfnotin : f ∉ ids ++ [sent] := by
      intro hmem2
      rcases List.mem_append.mp hmem2 with h | h
      · exact absurd (hid_lt f h) (lt_irrefl f)
      · simp at h; exact hsne (Eq.symm h)
    refine ⟨_, push_back_eq_nonempty s v hd last sent pl vl hhead2 htail2 hL1 hL2 hsne, ?_⟩
    refine ⟨?_, ?_, Or.inr ⟨ids ++ [sent], f, by simp, by simp, ?_, ?_, ?_, ?_, ?_⟩⟩
    · -- freshBound
      intro pr hpr
      have hk : pr.1 ∈ h3.mem.map Prod.fst := List.mem_map.mpr ⟨pr, hpr, rfl⟩
      rw [hkeys3] at hk
      rw [hfresh3]
      rcases List.mem_cons.mp hk with h | h
      · omega
      · obtain ⟨pr0, hpr0, hfst⟩ := List.mem_map.mp h
        have := fb pr0 hpr0
        omega
    · show s.size_ + 1 = (vs ++ [v]).length
      simp [hsize]
    · show s.head_ = (ids ++ [sent]).head?
      rw [headq_append_left ids [sent] hids]
      exact hhead
    · show some sent = (ids ++ [sent]).getLast?
      exact (getLastq_concat ids sent).symm
    · rw [List.nodup_append]
      refine ⟨hnd, List.nodup_singleton f, ?_⟩
      intro x hx hx2
      simp only [List.mem_singleton] at hx2
      exact hfnotin (hx2 ▸ hx)
    · show (h3.mem.map Prod.fst).Perm ((ids ++ [sent]) ++ [f])
      rw [hkeys3]
      exact (hperm.cons f).trans (List.perm_append_singleton f (ids ++ [sent])).symm
    · show linked h3 none (ids ++ [sent]) (vs ++ [v]) f
      exact linked_append s.heap h3 ids none vs sent v f hlink hcong
        (by rw [hsent3, lastPtr_of_getLastq _ _ _ hlast]) hf3

/-- Computation of `push_front` on a non-empty list: a new node is allocated
in front of the current head. -/
theorem push_front_eq_nonempty [Inhabited T] (s : CList T) (v : T)
    (hd : Nat) (nd : Node T)
    (hhead : s.head_ = some hd)
    (hL : s.heap.lookupN hd = some nd)
    (hne : hd ≠ s.heap.fresh) :
    push_front s v = some
      ⟨(s.heap.alloc ⟨some hd, none, v⟩).2.write hd { nd with prev_ := some s.heap.fresh },
       some s.heap.fresh, s.tail_, s.size_ + 1⟩ := by
  have hA : (s.heap.alloc ⟨some hd, none, v⟩).2.lookupN hd = some nd := by
    show lookupL ((s.heap.fresh, _) :: s.heap.mem) hd = _
    rw [lookupL_cons_ne _ _ _ _ hne]
    exact hL
  simp only [push_front, hhead, hA]
  simp [Heap.alloc]

/-- `push_front` on a well-formed list succeeds and prepends the value. -/
theorem push_front_wf [Inhabited T] (s : CList T) (vs : List T) (v : T) (hw : Wf s vs) :
    ∃ s', push_front s v = some s' ∧ Wf s' (v :: vs) := by
  obtain ⟨fb, hsize, hcase⟩ := hw
  rcases hcase with ⟨hvs, hhead, htail, hmem⟩ | ⟨ids, sent, hvs, hids, hhead, htail, hnd, hperm, hlink⟩
  · subst hvs
    refine ⟨_, push_front_eq_empty s v hhead hmem, ?_⟩
    simpa using wf_bootstrap s v hsize
  · cases ids with
    | nil => exact absurd rfl hids
    | cons hd rest =>
      have hhead2 : s.head_ = some hd := by rw [hhead]; rfl
      have hlinkfull : linked s.heap none (hd :: rest) vs sent := hlink
      obtain ⟨w, vs2, hvseq, hL, hlink2⟩ := hlink
      subst hvseq
      have hsnotin : sent ∉ hd :: rest := by
        have hdisj := (List.nodup_append.mp hnd).2.2
        intro hmem2
        exact hdisj hmem2 (by simp)
      have hL2 : s.heap.lookupN sent = some ⟨none, lastPtr none (hd :: rest), (default : T)⟩ :=
        linked_sentinel s.heap (hd :: rest) none (w :: vs2) sent hlinkfull
      set f := s.heap.fresh with hfdef
      have hhd_lt : hd < f := lt_fresh_of_lookupN _ _ _ fb hL
      have hhd_ne : hd ≠ f := Nat.ne_of_lt hhd_lt
      have hid_lt : ∀ id ∈ hd :: rest, id < f := by
        intro id hid
        obtain ⟨n, hn⟩ := linked_lookup_mem s.heap _ none _ sent hlinkfull id hid
        exact lt_fresh_of_lookupN _ _ _ fb hn
      have hsent_lt : sent < f := lt_fresh_of_lookupN _ _ _ fb hL2
      have hndc : hd ∉ rest := by
        have hno := (List.nodup_cons.mp hnd).1
        intro hc
        exact hno (List.mem_append.mpr (Or.inl hc))
      set h1 : Heap T := (s.heap.alloc ⟨some hd, none, v⟩).2 with hh1
      set h2 : Heap T := h1.write hd { (⟨some (nextId rest sent), none, w⟩ : Node T) with
        prev_ := some f } with hh2
      have hmemh1 : h1.mem = (f, (⟨some hd, none, v⟩ : Node T)) :: s.heap.mem := rfl
      have hfresh2 : h2.fresh = f + 1 := rfl
      have hlookf : h2.lookupN f = some ⟨some hd, none, v⟩ := by
        have hfne : f ≠ hd := Ne.symm hhd_ne
        show lookupL (writeL h1.mem hd _) f = _
        rw [lookupL_writeL_ne _ _ _ _ hfne, hmemh1]
        exact lookupL_cons_self _ _ _
      have hlookhd : h2.lookupN hd = some ⟨some (nextId rest sent), some f, w⟩ := by
        have h1hd : lookupL h1.mem hd = some ⟨some (nextId rest sent), none, w⟩ := by
          rw [hmemh1, lookupL_cons_ne _ _ _ _ hhd_ne]
          exact hL
        exact lookupL_writeL_self _ _ _ _ h1hd
      have hpres : ∀ id, id ≠ hd → id ≠ f → h2.lookupN id = s.heap.lookupN id := by
        intro id hne1 hne2
        show lookupL (writeL h1.mem hd _) id = _
        rw [lookupL_writeL_ne _ _ _ _ hne1, hmemh1, lookupL_cons_ne _ _ _ _ hne2]
        rfl
      have hkeys2 : h2.mem.map Prod.fst = f :: s.heap.mem.map Prod.fst := by
        show (writeL h1.mem hd _).map Prod.fst = _
        rw [keys_writeL, hmemh1, List.map_cons]
      refine ⟨_, push_front_eq_nonempty s v hd ⟨some (nextId rest sent), none, w⟩ hhead2 hL
        hhd_ne, ?_⟩
      refine ⟨?_, ?_, Or.inr ⟨f :: hd :: rest, sent, by simp, by simp, rfl, ?_, ?_, ?_, ?_⟩⟩
      · -- freshBound
        intro pr hpr
        have hk : pr.1 ∈ h2.mem.map Prod.fst := List.mem_map.mpr ⟨pr, hpr, rfl⟩
        rw [hkeys2] at hk
        show pr.1 < f + 1
        rcases List.mem_cons.mp hk with h | h
        · omega
        · obtain ⟨pr0, hpr0, hfst⟩ := List.mem_map.mp h
          have := fb pr0 hpr0
          omega
      · show s.size_ + 1 = (v :: w :: vs2).length
        simp [hsize]
      · show s.tail_ = (f :: hd :: rest).getLast?
        rw [List.getLast?_cons_cons]
        exact htail
      · show ((f :: hd :: rest) ++ [sent]).Nodup
        have hshape : (f :: hd :: rest) ++ [sent] = f :: ((hd :: rest) ++ [sent]) := rfl
        rw [hshape]
        refine List.nodup_cons.mpr ⟨?_, hnd⟩
        intro hmem2
        rcases List.mem_append.mp hmem2 with h | h
        · exact absurd (hid_lt f h) (lt_irrefl f)
        · simp only [List.mem_singleton] at h
          rw [h] at hsent_lt
          exact absurd hsent_lt (lt_irrefl sent)
      · show (h2.mem.map Prod.fst).Perm ((f :: hd :: rest) ++ [sent])
        rw [hkeys2]
        exact hperm.cons f
      · show linked h2 none (f :: hd :: rest) (v :: w :: vs2) sent
        refine ⟨v, w :: vs2, rfl, by simpa using hlookf, ?_⟩
        refine linked_cons_reprev s.heap h2 none (some f) hd rest (w :: vs2) sent
          hlinkfull ?_ ?_ ?_
        · intro nxt pv w' hlook
          rw [hL] at hlook
          injection hlook with hinj
          rw [show nxt = some (nextId rest sent) from congrArg Node.next_ hinj.symm,
            show w' = w from congrArg Node.data_ hinj.symm]
          exact hlookhd
        · intro id hid
          have hne1 : id ≠ hd := fun hc => hndc (hc ▸ hid)
          have hne2 : id ≠ f := Nat.ne_of_lt (hid_lt id (by simp [hid]))
          exact hpres id hne1 hne2
        · have hne1 : sent ≠ hd := fun hc => hsnotin (by simp [hc])
          have hne2 : sent ≠ f := Nat.ne_of_lt hsent_lt
          exact hpres sent hne1 hne2

/-! ## clear, traversal, and derived facts -/

/-- Running the `clear` loop over a well-linked chain frees every chain node
(at least one heap cell per step), succeeds, and preserves the fresh counter. -/
theorem clearLoopF_run [Inhabited T] :
    ∀ (ids : List Nat) (h : Heap T) (prevp : Option Nat) (vs : List T) (sent : Nat) (fuel : Nat),
      linked h prevp ids vs sent → (ids ++ [sent]).Nodup → ids.length + 1 ≤ fuel →
      ∃ h', clearLoopF fuel h (some (nextId ids sent)) = some h' ∧
        h'.mem.length + ids.length + 1 ≤ h.mem.length ∧ h'.fresh = h.fresh := by
  intro ids
  induction ids with
  | nil =>
    intro h prevp vs sent fuel hl _ hfuel
    obtain ⟨-, hsent⟩ := hl
    cases fuel with
    | zero => omega
    | succ fl =>
      refine ⟨h.free sent, ?_, ?_, rfl⟩
      · rw [nextId_nil, clearLoopF, hsent]
        show clearLoopF fl (h.free sent) none = some (h.free sent)
        rw [clearLoopF]
      · have := length_freeL_lt h.mem sent _ hsent
        show (freeL h.mem sent).length + 0 + 1 ≤ h.mem.length
        omega
  | cons a rest ih =>
    intro h prevp vs sent fuel hl hnd hfuel
    obtain ⟨w, vs2, rfl, ha, hrest⟩ := hl
    have hanotin : a ∉ rest ++ [sent] := (List.nodup_cons.mp hnd).1
    have hndr : (rest ++ [sent]).Nodup := (List.nodup_cons.mp hnd).2
    have hlink' : linked (h.free a) (some a) rest vs2 sent := by
      refine linked_congr h (h.free a) rest (some a) vs2 sent ?_ ?_ hrest
      · intro id hid
        have hne : id ≠ a := fun hc => hanotin (hc ▸ List.mem_append.mpr (Or.inl hid))
        exact lookupL_freeL_ne h.mem a id hne
      · have hne : sent ≠ a := fun hc => hanotin (hc ▸ List.mem_append.mpr (Or.inr (by simp)))
        exact lookupL_freeL_ne h.mem a sent hne
    cases fuel with
    | zero => simp at hfuel
    | succ fl =>
      obtain ⟨h', heq, hlen, hfr⟩ := ih (h.free a) (some a) vs2 sent fl hlink' hndr
        (by simp only [List.length_cons] at hfuel; omega)
      refine ⟨h', ?_, ?_, ?_⟩
      · rw [nextId_cons, clearLoopF, ha]
        exact heq
      · have hstep := length_freeL_lt h.mem a _ ha
        have hfm : (h.free a).mem.length = (freeL h.mem a).length := rfl
        simp only [List.length_cons]
        omega
      · rw [hfr]; rfl

/-- `clear` on a well-formed list succeeds and resets the list to the empty
state with an empty heap. -/
theorem clear_wf [Inhabited T] (s : CList T) (vs : List T) (hw : Wf s vs) :
    ∃ s', clear s = some s' ∧ s'.head_ = none ∧ s'.tail_ = none ∧ s'.size_ = 0 ∧
      s'.heap.mem = [] ∧ Wf s' [] := by
  obtain ⟨fb, hsize, hcase⟩ := hw
  rcases hcase with ⟨hvs, hhead, htail, hmem⟩ | ⟨ids, sent, hvs, hids, hhead, htail, hnd, hperm, hlink⟩
  · refine ⟨⟨s.heap, none, none, 0⟩, ?_, rfl, rfl, rfl, hmem, ?_⟩
    · rw [clear, hhead]
      rfl
    · exact ⟨by intro pr hpr; rw [hmem] at hpr; simp at hpr, rfl,
        Or.inl ⟨rfl, rfl, rfl, hmem⟩⟩
  · obtain ⟨hd, hhd⟩ := Option.isSome_iff_exists.mp (List.head?_isSome.mpr hids)
    have hhead2 : s.head_ = some hd := by rw [hhead, hhd]
    have hcnt : s.heap.mem.length = ids.length + 1 := by
      have h1 : (s.heap.mem.map Prod.fst).length = (ids ++ [sent]).length := hperm.length_eq
      simpa using h1
    obtain ⟨h', heq, hlen, hfr⟩ := clearLoopF_run ids s.heap none vs sent
      (s.heap.mem.length + 1) hlink hnd (by omega)
    have hnil : h'.mem = [] := List.length_eq_zero.mp (by omega)
    refine ⟨⟨h', none, none, 0⟩, ?_, rfl, rfl, rfl, hnil, ?_⟩
    · rw [clear, hhead2,
        show some hd = some (nextId ids sent) by rw [nextId_of_headq ids hd sent hhd]]
      show (clearLoopF (s.heap.mem.length + 1) s.heap (some (nextId ids sent))).map _ = _
      rw [heq]
      rfl
    · exact ⟨by intro pr hpr; rw [hnil] at hpr; simp at hpr, rfl,
        Or.inl ⟨rfl, rfl, rfl, hnil⟩⟩

/-- Iterating from the start of a well-linked chain up to its sentinel
collects exactly the chain's values (any sufficient fuel). -/
theorem iterCollect_linked [Inhabited T] :
    ∀ (ids : List Nat) (h : Heap T) (prevp : Option Nat) (vs : List T) (sent : Nat) (fuel : Nat),
      linked h prevp ids vs sent → (ids ++ [sent]).Nodup → vs.length ≤ fuel →
      iterCollect h fuel (some (nextId ids sent)) (some sent) = some vs := by
  intro ids
  induction ids with
  | nil =>
    intro h prevp vs sent fuel hl _ _
    obtain ⟨rfl, -⟩ := hl
    cases fuel <;> simp [iterCollect]
  | cons a rest ih =>
    intro h prevp vs sent fuel hl hnd hfuel
    obtain ⟨w, vs2, rfl, ha, hrest⟩ := hl
    have hanotin : a ∉ rest ++ [sent] := (List.nodup_cons.mp hnd).1
    have hane : a ≠ sent := fun hc => hanotin (hc ▸ List.mem_append.mpr (Or.inr (by simp)))
    cases fuel with
    | zero => simp at hfuel
    | succ fl =>
      have hrec := ih h (some a) vs2 sent fl hrest (List.nodup_cons.mp hnd).2
        (by simp only [List.length_cons] at hfuel; omega)
      rw [nextId_cons, iterCollect, if_neg (by simpa using hane), ha]
      show (iterCollect h fl (some (nextId rest sent)) (some sent)).map
        (fun r => w :: r) = some (w :: vs2)
      rw [hrec]
      rfl

/-- Forward iteration of a well-formed list yields exactly its value list. -/
theorem traverse_wf [Inhabited T] (s : CList T) (vs : List T) (hw : Wf s vs) :
    traverse s = some vs := by
  obtain ⟨fb, hsize, hcase⟩ := hw
  rcases hcase with ⟨hvs, hhead, htail, hmem⟩ | ⟨ids, sent, hvs, hids, hhead, htail, hnd, hperm, hlink⟩
  · subst hvs
    simp [traverse, endIter, htail, begin, hhead, size, iterCollect]
  · obtain ⟨hd, hhd⟩ := Option.isSome_iff_exists.mp (List.head?_isSome.mpr hids)
    obtain ⟨last, hlast⟩ := Option.isSome_iff_exists.mp (List.getLast?_isSome.mpr hids)
    have hhead2 : s.head_ = some hd := by rw [hhead, hhd]
    have htail2 : s.tail_ = some last := by rw [htail, hlast]
    obtain ⟨pl, vl, hL1⟩ := linked_last s.heap ids none vs sent last hlink hlast
    have hend : endIter s = some (some sent) := by
      rw [endIter, htail2]
      show (s.heap.lookupN last).map (fun n => n.next_) = some (some sent)
      rw [hL1]
      rfl
    have hit : iterCollect s.heap (size s + 1) (some (nextId ids sent)) (some sent) = some vs :=
      iterCollect_linked ids s.heap none vs sent (size s + 1) hlink hnd
        (by show vs.length ≤ s.size_ + 1; omega)
    rw [traverse, hend, Option.some_bind, begin, hhead2,
      show some hd = some (nextId ids sent) by rw [nextId_of_headq ids hd sent hhd]]
    exact hit

/-- In a well-formed list, `empty()` is equivalent both to `size() == 0` and
to the value sequence being empty. -/
theorem wf_empty_iff [Inhabited T] (s : CList T) (vs : List T) (hw : Wf s vs) :
    ((empty s = true) ↔ s.size_ = 0) ∧ ((empty s = true) ↔ vs = []) := by
  obtain ⟨fb, hsize, hcase⟩ := hw
  rcases hcase with ⟨hvs, hhead, htail, hmem⟩ | ⟨ids, sent, hvs, hids, hhead, htail, hnd, hperm, hlink⟩
  · subst hvs
    simp [empty, hhead, hsize]
  · obtain ⟨hd, hhd⟩ := Option.isSome_iff_exists.mp (List.head?_isSome.mpr hids)
    have hhead2 : s.head_ = some hd := by rw [hhead, hhd]
    have hlen : vs.length ≠ 0 := fun hc => hvs (List.length_eq_zero.mp hc)
    simp [empty, hhead2, hsize, hlen, hvs]

/-! ## Building lists by repeated pushes; the range constructor; erase -/

theorem foldl_push_back_wf [Inhabited T] :
    ∀ (vs : List T) (acc : CList T) (ws : List T), Wf acc ws →
      ∃ s, List.foldlM push_back acc vs = some s ∧ Wf s (ws ++ vs) := by
  intro vs
  induction vs with
  | nil =>
    intro acc ws hwf
    exact ⟨acc, by simp [List.foldlM_nil], by simpa using hwf⟩
  | cons v vs ih =>
    intro acc ws hwf
    obtain ⟨a1, he, hw1⟩ := push_back_wf acc ws v hwf
    obtain ⟨s, he2, hw2⟩ := ih a1 (ws ++ [v]) hw1
    refine ⟨s, ?_, by simpa using hw2⟩
    rw [List.foldlM_cons, he]
    exact he2

theorem buildB_wf [Inhabited T] (vs : List T) : ∃ s, buildB vs = some s ∧ Wf s vs := by
  obtain ⟨s, he, hw⟩ := foldl_push_back_wf vs emptyCL [] wf_emptyCL
  exact ⟨s, he, by simpa using hw⟩

theorem wf_of_buildB [Inhabited T] (vs : List T) (s : CList T) (h : buildB vs = some s) :
    Wf s vs := by
  obtain ⟨s', h', hw⟩ := buildB_wf vs
  rw [h'] at h
  injection h with h2
  rw [← h2]
  exact hw

theorem foldl_push_front_wf [Inhabited T] :
    ∀ (vs : List T) (acc : CList T) (ws : List T), Wf acc ws →
      ∃ s, List.foldlM push_front acc vs = some s ∧ Wf s (vs.reverse ++ ws) := by
  intro vs
  induction vs with
  | nil =>
    intro acc ws hwf
    exact ⟨acc, by simp [List.foldlM_nil], by simpa using hwf⟩
  | cons v vs ih =>
    intro acc ws hwf
    obtain ⟨a1, he, hw1⟩ := push_front_wf acc ws v hwf
    obtain ⟨s, he2, hw2⟩ := ih a1 (v :: ws) hw1
    refine ⟨s, ?_, by simpa [List.append_assoc] using hw2⟩
    rw [List.foldlM_cons, he]
    exact he2

theorem buildF_wf [Inhabited T] (vs : List T) :
    ∃ s, buildF vs = some s ∧ Wf s vs.reverse := by
  obtain ⟨s, he, hw⟩ := foldl_push_front_wf vs emptyCL [] wf_emptyCL
  exact ⟨s, he, by simpa using hw⟩

theorem fromRangeLoop_wf [Inhabited T] :
    ∀ (ids : List Nat) (srcH : Heap T) (prevp : Option Nat) (vs : List T) (sent : Nat)
      (fuel : Nat) (acc : CList T) (ws : List T),
      linked srcH prevp ids vs sent → (ids ++ [sent]).Nodup → vs.length ≤ fuel → Wf acc ws →
      ∃ d, fromRangeLoop srcH fuel (some (nextId ids sent)) (some sent) acc = some d ∧
        Wf d (ws ++ vs) := by
  intro ids
  induction ids with
  | nil =>
    intro srcH prevp vs sent fuel acc ws hl _ _ hwf
    obtain ⟨rfl, -⟩ := hl
    refine ⟨acc, ?_, by simpa using hwf⟩
    cases fuel <;> simp [fromRangeLoop]
  | cons a rest ih =>
    intro srcH prevp vs sent fuel acc ws hl hnd hfuel hwf
    obtain ⟨w, vs2, rfl, ha, hrest⟩ := hl
    have hanotin : a ∉ rest ++ [sent] := (List.nodup_cons.mp hnd).1
    have hane : a ≠ sent := fun hc => hanotin (hc ▸ List.mem_append.mpr (Or.inr (by simp)))
    cases fuel with
    | zero => simp at hfuel
    | succ fl =>
      obtain ⟨a1, he, hw1⟩ := push_back_wf acc ws w hwf
      obtain ⟨d, he2, hw2⟩ := ih srcH (some a) vs2 sent fl a1 (ws ++ [w]) hrest
        (List.nodup_cons.mp hnd).2 (by simp only [List.length_cons] at hfuel; omega) hw1
      refine ⟨d, ?_, by simpa using hw2⟩
      rw [nextId_cons, fromRangeLoop, if_neg (by simpa using hane), ha]
      show (push_back acc w).bind
        (fromRangeLoop srcH fl (some (nextId rest sent)) (some sent)) = some d
      rw [he]
      exact he2

/-- The iterator-range constructor applied to a well-formed list succeeds and
deep-copies its value sequence. -/
theorem fromRange_wf [Inhabited T] (s : CList T) (vs : List T) (hw : Wf s vs) :
    ∃ d, fromRange s = some d ∧ Wf d vs := by
  obtain ⟨fb, hsize, hcase⟩ := hw
  rcases hcase with ⟨hvs, hhead, htail, hmem⟩ | ⟨ids, sent, hvs, hids, hhead, htail, hnd, hperm, hlink⟩
  · subst hvs
    refine ⟨emptyCL, ?_, wf_emptyCL⟩
    rw [fromRange, endIter, htail]
    show (some none).bind
      (fun e => fromRangeLoop s.heap (size s + 1) (begin s) e emptyCL) = some emptyCL
    rw [Option.some_bind, begin, hhead, fromRangeLoop]
    simp
  · obtain ⟨hd, hhd⟩ := Option.isSome_iff_exists.mp (List.head?_isSome.mpr hids)
    obtain ⟨last, hlast⟩ := Option.isSome_iff_exists.mp (List.getLast?_isSome.mpr hids)
    have hhead2 : s.head_ = some hd := by rw [hhead, hhd]
    have htail2 : s.tail_ = some last := by rw [htail, hlast]
    obtain ⟨pl, vl, hL1⟩ := linked_last s.heap ids none vs sent last hlink hlast
    have hend : endIter s = some (some sent) := by
      rw [endIter, htail2]
      show (s.heap.lookupN last).map (fun n => n.next_) = some (some sent)
      rw [hL1]
      rfl
    obtain ⟨d, he2, hw2⟩ := fromRangeLoop_wf ids s.heap none vs sent (size s + 1) emptyCL []
      hlink hnd (by show vs.length ≤ s.size_ + 1; omega) wf_emptyCL
    refine ⟨d, ?_, by simpa using hw2⟩
    rw [fromRange, hend, Option.some_bind, begin, hhead2,
      show some hd = some (nextId ids sent) by rw [nextId_of_headq ids hd sent hhd]]
    exact he2

/-- On a singleton list, `erase` delegates to `clear` and wraps the nulled
head in the returned iterator, whatever the position argument is. -/
theorem erase_singleton_wf [Inhabited T] (s : CList T) (vs : List T) (hw : Wf s vs)
    (hone : s.size_ = 1) (p : Option Nat) :
    ∃ s', erase s p = some ((none : Option Nat), s') ∧ s'.head_ = none ∧
      s'.size_ = 0 ∧ Wf s' [] ∧ endIter s' = some none := by
  obtain ⟨s', hc, hh, ht, hs, hm, hwf⟩ := clear_wf s vs hw
  refine ⟨s', ?_, hh, hs, hwf, ?_⟩
  · rw [erase.eq_def, if_pos (show size s = 1 from hone), hc]
    show some (s'.head_, s') = some (none, s')
    rw [hh]
  · rw [endIter, ht]

/-- When `size() != 1` and the heap is empty, `erase` always faults. -/
theorem erase_fails_on_empty_heap (s : CList T) (p : Option Nat)
    (hone : ¬ size s = 1) (hmem : s.heap.mem = []) : erase s p = none := by
  rw [erase.eq_def, if_neg hone]
  cases p with
  | none => rfl
  | some nid =>
    have hl : s.heap.lookupN nid = none := by
      show lookupL s.heap.mem nid = none
      rw [hmem]
      rfl
    simp [hl]

/-- Any completed run of the unlink branch of `erase` keeps `head_` and
`tail_` unchanged and decrements `size_` (the source never updates them). -/
theorem erase_unlink_shape (s : CList T) (p r : Option Nat) (s' : CList T)
    (hone : ¬ size s = 1) (h : erase s p = some (r, s')) :
    s'.head_ = s.head_ ∧ s'.tail_ = s.tail_ ∧ s'.size_ = s.size_ - 1 := by
  rw [erase.eq_def, if_neg hone] at h
  repeat'
    first
      | split at h
      | simp only [] at h
  all_goals
    first
      | exact h.elim
      | exact Option.noConfusion h
      | (simp only [Option.some.injEq, Prod.mk.injEq] at h
         obtain ⟨-, hs'⟩ := h
         subst hs'
         exact ⟨rfl, rfl, rfl⟩)

/-! ## A reachability invariant that the buggy `erase` preserves

`Wf` is too strong to be an invariant of legal usage: erasing the last real
element leaves `tail_` dangling at the freed node.  `Chain` captures the
tail-independent part of well-formedness, and `Inv` allows the tail either
to sit at the last real node or to dangle at a freed id.  `Inv` holds for
the default-constructed list and is preserved by every public operation
that completes, so it covers every reachable state. -/

/-- The tail-independent part of well-formedness: real nodes `ids` holding
`vs` are linked from `head_` through to the sentinel `sent`, and the heap
contains exactly those cells. -/
structure Chain [Inhabited T] (s : CList T) (ids : List Nat) (sent : Nat)
    (vs : List T) : Prop where
  fb : freshBound s.heap
  hsize : s.size_ = vs.length
  hne : ids ≠ []
  hhead : s.head_ = ids.head?
  hnd : (ids ++ [sent]).Nodup
  hperm : (s.heap.mem.map Prod.fst).Perm (ids ++ [sent])
  hlink : linked s.heap none ids vs sent

/-- States reachable by legal usage: either the empty list, or a chain whose
`tail_` is at the last real node (well-formed) or dangles at a freed id
(produced by `erase` of the former last element). -/
def Inv [Inhabited T] (s : CList T) : Prop :=
  (s.head_ = none ∧ s.tail_ = none ∧ s.size_ = 0 ∧ s.heap.mem = [] ∧ freshBound s.heap) ∨
  (∃ ids sent vs, Chain s ids sent vs ∧
    (s.tail_ = ids.getLast? ∨
      ∃ d, s.tail_ = some d ∧ s.heap.lookupN d = none ∧ d < s.heap.fresh))

theorem lookupL_freeL_self (l : List (Nat × Node T)) (k : Nat) :
    lookupL (freeL l k) k = none := by
  induction l with
  | nil => rfl
  | cons pr t ih =>
    by_cases hk : pr.1 = k
    · have hb : (pr.1 != k) = false := by simp [hk]
      simpa [freeL, List.filter_cons, hb] using ih
    · have hb : (pr.1 != k) = true := by
        simp [hk]
      have h1 : freeL (pr :: t) k = pr :: freeL t k := by
        simp [freeL, List.filter_cons, hb]
      rw [h1]
      cases pr with
      | mk a b =>
        simp only [lookupL]
        rw [if_neg hk]
        exact ih

theorem keys_freeL (l : List (Nat × Node T)) (k : Nat) :
    (freeL l k).map Prod.fst = (l.map Prod.fst).filter (fun x => x != k) := by
  induction l with
  | nil => rfl
  | cons pr t ih =>
    by_cases hk : pr.1 = k
    · have hb : (pr.1 != k) = false := by simp [hk]
      have h1 : freeL (pr :: t) k = freeL t k := by
        simp [freeL, List.filter_cons, hb]
      have h2 : (List.map Prod.fst (pr :: t)).filter (fun x => x != k) =
          (List.map Prod.fst t).filter (fun x => x != k) := by
        simp [List.filter_cons, hb]
      rw [h1, h2, ih]
    · have hb : (pr.1 != k) = true := by simp [hk]
      have h1 : freeL (pr :: t) k = pr :: freeL t k := by
        simp [freeL, List.filter_cons, hb]
      have h2 : (List.map Prod.fst (pr :: t)).filter (fun x => x != k) =
          pr.1 :: (List.map Prod.fst t).filter (fun x => x != k) := by
        simp [List.filter_cons, hb]
      rw [h1, h2, List.map_cons, ih]

theorem filter_ne_eq_self (l : List Nat) (k : Nat) (h : k ∉ l) :
    l.filter (fun x => x != k) = l := by
  induction l with
  | nil => rfl
  | cons a t ih =>
    have ha : ¬(a = k) := fun hc => h (by simp [hc])
    have hb : (a != k) = true := by simp [ha]
    have ht : k ∉ t := fun hc => h (by simp [hc])
    simp [List.filter_cons, hb, ih ht]

theorem headq_append_cons (l : List Nat) (a : Nat) (t t' : List Nat) :
    (l ++ a :: t).head? = (l ++ a :: t').head? := by
  cases l <;> rfl

theorem nextId_append_cons (l : List Nat) (a s : Nat) (t t' : List Nat) :
    nextId (l ++ a :: t) s = nextId (l ++ a :: t') s := by
  cases l <;> rfl

theorem getLastq_append_cons (l1 : List Nat) (a : Nat) (t : List Nat) :
    (l1 ++ a :: t).getLast? = (a :: t).getLast? := by
  induction l1 with
  | nil => rfl
  | cons x l1' ih =>
    cases l1' with
    | nil => simp [List.getLast?_cons_cons]
    | cons y l1'' =>
      rw [List.cons_append, List.cons_append, List.getLast?_cons_cons]
      rw [List.cons_append] at ih
      exact ih

theorem getLastq_cons_of_ne (a : Nat) (t : List Nat) (h : t ≠ []) :
    (a :: t).getLast? = t.getLast? := by
  cases t with
  | nil => exact absurd rfl h
  | cons b t' => rw [List.getLast?_cons_cons]

/-- A member of a list that is not its head sits after some predecessor. -/
theorem mem_not_head_decomp :
    ∀ (ids : List Nat) (nid : Nat), nid ∈ ids → ids.head? ≠ some nid →
      ∃ l1 a l2, ids = l1 ++ a :: nid :: l2 := by
  intro ids
  induction ids with
  | nil => intro nid h; simp at h
  | cons x rest ih =>
    intro nid hmem hhead
    have hx : ¬(nid = x) := fun hc => hhead (by rw [hc]; rfl)
    have hr : nid ∈ rest := by
      rcases List.mem_cons.mp hmem with h | h
      · exact absurd h hx
      · exact h
    cases rest with
    | nil => simp at hr
    | cons y rest2 =>
      by_cases hy : nid = y
      · exact ⟨[], x, rest2, by rw [hy]; rfl⟩
      · have hh2 : (y :: rest2).head? ≠ some nid := by
          intro hc
          rw [List.head?_cons] at hc
          injection hc with hc2
          exact hy hc2.symm
        obtain ⟨l1, a, l2, hdec⟩ := ih nid hr hh2
        exact ⟨x :: l1, a, l2, by rw [hdec]; rfl⟩

/-- In a linked chain, a node with a predecessor holds a pointer to it and
to its successor (the next id or the sentinel). -/
theorem linked_infix [Inhabited T] (h : Heap T) :
    ∀ (l1 : List Nat) (prevp : Option Nat) (vs : List T) (sent a b : Nat) (l2 : List Nat),
      linked h prevp (l1 ++ a :: b :: l2) vs sent →
      ∃ w, h.lookupN b = some ⟨some (nextId l2 sent), some a, w⟩ := by
  intro l1
  induction l1 with
  | nil =>
    intro prevp vs sent a b l2 hl
    obtain ⟨va, vs2, rfl, -, hl2⟩ := hl
    obtain ⟨vb, vs3, rfl, hb, -⟩ := hl2
    exact ⟨vb, hb⟩
  | cons x l1' ih =>
    intro prevp vs sent a b l2 hl
    rw [List.cons_append] at hl
    obtain ⟨vx, vs2, rfl, -, hl2⟩ := hl
    exact ih _ _ _ _ _ _ hl2

/-- Changing only the `prev_` field of the chain's first node (or of the
sentinel when the chain is empty) re-roots a linked chain at a new
predecessor pointer. -/
theorem linked_reprev [Inhabited T] (h h' : Heap T) (p p' : Option Nat) :
    ∀ (ids : List Nat) (vs : List T) (sent : Nat),
      linked h p ids vs sent → (ids ++ [sent]).Nodup →
      (∀ n2 : Node T, h.lookupN (nextId ids sent) = some n2 →
        h'.lookupN (nextId ids sent) = some ⟨n2.next_, p', n2.data_⟩) →
      (∀ id ∈ ids, id ≠ nextId ids sent → h'.lookupN id = h.lookupN id) →
      (sent ≠ nextId ids sent → h'.lookupN sent = h.lookupN sent) →
      linked h' p' ids vs sent := by
  intro ids
  cases ids with
  | nil =>
    intro vs sent hl _ hfirst _ _
    obtain ⟨rfl, hsent⟩ := hl
    refine ⟨rfl, ?_⟩
    simpa using hfirst _ hsent
  | cons a rest =>
    intro vs sent hl hnd hfirst hrest hsent
    obtain ⟨w, vs2, rfl, ha, hlink2⟩ := hl
    have hanotin : a ∉ rest ++ [sent] := (List.nodup_cons.mp hnd).1
    refine ⟨w, vs2, rfl, by simpa using hfirst _ ha, ?_⟩
    refine linked_congr h h' rest (some a) vs2 sent ?_ ?_ hlink2
    · intro id hid
      have hne : id ≠ a := fun hc => hanotin (hc ▸ List.mem_append.mpr (Or.inl hid))
      exact hrest id (by simp [hid]) (by simpa using hne)
    · have hne : sent ≠ a := fun hc => hanotin (hc ▸ List.mem_append.mpr (Or.inr (by simp)))
      exact hsent (by simpa using hne)

/-- Chain surgery: if `h3` behaves like `h` except that `pid`'s `next_` now
skips `nid` to the old successor, the successor's `prev_` points back to
`pid`, and other cells are unchanged, then the chain without `nid` is
linked in `h3`. -/
theorem linked_surgery [Inhabited T] (h h3 : Heap T) (sent pid nid : Nat) (l2 : List Nat)
    (hpid : ∀ pn : Node T, h.lookupN pid = some pn →
      h3.lookupN pid = some ⟨some (nextId l2 sent), pn.prev_, pn.data_⟩)
    (hxid : ∀ xn : Node T, h.lookupN (nextId l2 sent) = some xn →
      h3.lookupN (nextId l2 sent) = some ⟨xn.next_, some pid, xn.data_⟩)
    (hl2pres : ∀ id ∈ l2, id ≠ nextId l2 sent → h3.lookupN id = h.lookupN id)
    (hsentpres : sent ≠ nextId l2 sent → h3.lookupN sent = h.lookupN sent) :
    ∀ (l1 : List Nat) (prevp : Option Nat) (vs : List T),
      linked h prevp (l1 ++ pid :: nid :: l2) vs sent →
      ((l1 ++ pid :: nid :: l2) ++ [sent]).Nodup →
      (∀ id ∈ l1, h3.lookupN id = h.lookupN id) →
      ∃ vs', vs'.length + 1 = vs.length ∧ linked h3 prevp (l1 ++ pid :: l2) vs' sent := by
  intro l1
  induction l1 with
  | nil =>
    intro prevp vs hl hnd _
    obtain ⟨vp, vs2, rfl, hpl, hl2⟩ := hl
    obtain ⟨vn, vs3, rfl, hnl, hl3⟩ := hl2
    have hnd2 : ((nid :: l2) ++ [sent]).Nodup := (List.nodup_cons.mp hnd).2
    have hnd3 : (l2 ++ [sent]).Nodup := (List.nodup_cons.mp hnd2).2
    refine ⟨vp :: vs3, by simp, ?_⟩
    refine ⟨vp, vs3, rfl, ?_, ?_⟩
    · simpa using hpid _ hpl
    · exact linked_reprev h h3 (some nid) (some pid) l2 vs3 sent hl3 hnd3
        (fun n2 hn2 => hxid n2 hn2) hl2pres hsentpres
  | cons x l1' ih =>
    intro prevp vs hl hnd hl1pres
    rw [List.cons_append] at hl
    obtain ⟨vx, vs2, rfl, hx, hl2⟩ := hl
    have hndtail : ((l1' ++ pid :: nid :: l2) ++ [sent]).Nodup := (List.nodup_cons.mp hnd).2
    obtain ⟨vs', hlen, hlink'⟩ := ih _ _ hl2 hndtail (fun id hid => hl1pres id (by simp [hid]))
    refine ⟨vx :: vs', by simp only [List.length_cons]; omega, ?_⟩
    rw [List.cons_append]
    refine ⟨vx, vs', rfl, ?_, hlink'⟩
    rw [hl1pres x (by simp), hx, nextId_append_cons l1' pid sent (nid :: l2) l2]

/-- Any completed run of the unlink branch of `erase` determines a position
`nid` whose node exists, has a non-null `prev_`, and after the first unlink
write still has a non-null `next_`. -/
theorem erase_completes_pos (s : CList T) (p r : Option Nat) (s' : CList T)
    (hone : ¬ size s = 1) (h : erase s p = some (r, s')) :
    ∃ nid node pid pn node1,
      p = some nid ∧ s.heap.lookupN nid = some node ∧ node.prev_ = some pid ∧
      s.heap.lookupN pid = some pn ∧
      (s.heap.write pid ⟨node.next_, pn.prev_, pn.data_⟩).lookupN nid = some node1 ∧
      node1.next_ ≠ none := by
  rw [erase.eq_def, if_neg hone] at h
  repeat'
    first
      | split at h
      | simp only [] at h
  all_goals
    first
      | exact h.elim
      | exact Option.noConfusion h
      | (rename_i x7 nid x6 node heq6 x5 pid heq5 x4 pn heq4 x3 node1 heq3 x2
           xid heq2 x1 xn heq1 x0 node2 heq0
         exact ⟨nid, node, pid, pn, node1, rfl, heq6, heq5, heq4, heq3, by
           intro hc
           rw [hc] at heq2
           exact Option.noConfusion heq2⟩)

/-- Computation of the unlink branch of `erase` at a node whose two
neighbors are present and distinct from it and from one another. -/
theorem erase_eq_unlink [Inhabited T] (s : CList T) (nid pid xid : Nat)
    (node pn xn : Node T) (hone : ¬ size s = 1)
    (h1 : s.heap.lookupN nid = some node)
    (h2 : node.prev_ = some pid)
    (h3 : node.next_ = some xid)
    (hnp : nid ≠ pid) (hnx : nid ≠ xid) (hxp : xid ≠ pid)
    (h4 : s.heap.lookupN pid = some pn)
    (h5 : s.heap.lookupN xid = some xn) :
    erase s (some nid) = some (some xid,
      ⟨((s.heap.write pid ⟨some xid, pn.prev_, pn.data_⟩).write xid
          ⟨xn.next_, some pid, xn.data_⟩).free nid,
       s.head_, s.tail_, s.size_ - 1⟩) := by
  have hA : (s.heap.write pid ⟨some xid, pn.prev_, pn.data_⟩).lookupN nid = some node := by
    show lookupL (writeL s.heap.mem pid _) nid = _
    rw [lookupL_writeL_ne _ _ _ _ hnp]
    exact h1
  have hB : (s.heap.write pid ⟨some xid, pn.prev_, pn.data_⟩).lookupN xid = some xn := by
    show lookupL (writeL s.heap.mem pid _) xid = _
    rw [lookupL_writeL_ne _ _ _ _ hxp]
    exact h5
  have hC : ((s.heap.write pid ⟨some xid, pn.prev_, pn.data_⟩).write xid
      ⟨xn.next_, some pid, xn.data_⟩).lookupN nid = some node := by
    show lookupL (writeL _ xid _) nid = _
    rw [lookupL_writeL_ne _ _ _ _ hnx]
    exact hA
  rw [erase.eq_def, if_neg hone]
  simp only [h1, h2, h3, h4, hA, hB, hC]

theorem lastPtr_none (l : List Nat) : lastPtr none l = l.getLast? := by
  cases h : l.getLast? <;> simp [lastPtr, h]

theorem mem_of_getLastq : ∀ (l : List Nat) (a : Nat), l.getLast? = some a → a ∈ l := by
  intro l
  induction l with
  | nil => intro a h; simp at h
  | cons x t ih =>
    intro a h
    cases t with
    | nil =>
      have hx : x = a := by
        have : (x :: ([] : List Nat)).getLast? = some x := rfl
        rw [this] at h
        injection h
      simp [hx]
    | cons y t2 =>
      rw [List.getLast?_cons_cons] at h
      exact List.mem_cons.mpr (Or.inr (ih a h))

/-- Characterization of every completed unlink-branch run of `erase` from a
chain state: the erased position is a real non-head node; the remaining
chain is linked with the same sentinel; `head_`, `tail_` and the fresh
counter pass through; the erased cell is freed; already-dangling ids stay
dangling; and the chain's last id is unchanged unless it was the erased one. -/
theorem erase_chain [Inhabited T] (s : CList T) (ids : List Nat) (sent : Nat) (vs : List T)
    (hch : Chain s ids sent vs) (hone : ¬ size s = 1)
    (p r : Option Nat) (s' : CList T) (h : erase s p = some (r, s')) :
    ∃ ids' vs' nid, p = some nid ∧ Chain s' ids' sent vs' ∧
      s'.head_ = s.head_ ∧ s'.tail_ = s.tail_ ∧ s'.heap.fresh = s.heap.fresh ∧
      nid ∈ ids ∧ s'.heap.lookupN nid = none ∧
      (ids.getLast? ≠ some nid → ids'.getLast? = ids.getLast?) ∧
      (∀ d, s.heap.lookupN d = none → s'.heap.lookupN d = none) := by
  obtain ⟨fb, hsize, hids, hhead, hnd, hperm, hlink⟩ := hch
  obtain ⟨nid, node, pid0, pn0, node1, hp, e1, e2, e4, eA, e5⟩ :=
    erase_completes_pos s p r s' hone h
  subst hp
  have hsnotin : sent ∉ ids := by
    have hdisj := (List.nodup_append.mp hnd).2.2
    intro hmem2
    exact hdisj hmem2 (by simp)
  -- the erased node is a real node (not the sentinel)
  have hnidmem : nid ∈ ids := by
    have hk : nid ∈ s.heap.mem.map Prod.fst := mem_keys_of_lookupL _ _ _ e1
    have hmm : nid ∈ ids ++ [sent] := hperm.mem_iff.mp hk
    rcases List.mem_append.mp hmm with hin | hin
    · exact hin
    · exfalso
      simp only [List.mem_singleton] at hin
      have hsent := linked_sentinel s.heap ids none vs sent hlink
      rw [← hin] at hsent
      rw [e1] at hsent
      injection hsent with hnodeeq
      have hpl : lastPtr none ids = some pid0 := by rw [hnodeeq] at e2; exact e2
      rw [lastPtr_none] at hpl
      have hpid0mem : pid0 ∈ ids := mem_of_getLastq ids pid0 hpl
      have hpne : nid ≠ pid0 := by
        intro hc
        apply hsnotin
        rw [hin.symm.trans hc]
        exact hpid0mem
      have hA2 : (s.heap.write pid0 ⟨node.next_, pn0.prev_, pn0.data_⟩).lookupN nid
          = some node := by
        show lookupL (writeL s.heap.mem pid0 _) nid = _
        rw [lookupL_writeL_ne _ _ _ _ hpne]
        exact e1
      rw [hA2] at eA
      injection eA with hn1
      rw [← hn1, hnodeeq] at e5
      exact e5 rfl
  -- the erased node is not the head (its prev is non-null)
  have hnothead : ids.head? ≠ some nid := by
    intro hc
    cases ids with
    | nil => exact hids rfl
    | cons a rest =>
      rw [List.head?_cons] at hc
      injection hc with hc2
      subst hc2
      obtain ⟨w, vs2, hvs, ha, -⟩ := hlink
      rw [e1] at ha
      injection ha with ha2
      rw [ha2] at e2
      simp at e2
  obtain ⟨l1, pid, l2, hdec⟩ := mem_not_head_decomp ids nid hnidmem hnothead
  subst hdec
  obtain ⟨w, hwl⟩ := linked_infix s.heap l1 none vs sent pid nid l2 hlink
  rw [e1] at hwl
  injection hwl with hnode
  have hpid0 : pid = pid0 := by
    rw [hnode] at e2
    injection e2
  subst hpid0
  have e2x : node.prev_ = some pid := by rw [hnode]
  have e3x : node.next_ = some (nextId l2 sent) := by rw [hnode]
  -- distinctness facts from nodup
  have hndL : (l1 ++ pid :: nid :: l2).Nodup := (List.nodup_append.mp hnd).1
  obtain ⟨hl1nd, hmid_nd, hdisj⟩ := List.nodup_append.mp hndL
  have hpid_notin : pid ∉ nid :: l2 := (List.nodup_cons.mp hmid_nd).1
  have hnid_notin : nid ∉ l2 := (List.nodup_cons.mp (List.nodup_cons.mp hmid_nd).2).1
  have hnp : nid ≠ pid := fun hc => hpid_notin (by rw [← hc]; exact List.mem_cons_self nid l2)
  have hsent_ne_nid : sent ≠ nid := fun hc => hsnotin (by rw [hc]; exact hnidmem)
  have hsent_ne_pid : sent ≠ pid :=
    fun hc => hsnotin (by rw [hc]; exact List.mem_append.mpr (Or.inr (by simp)))
  have hninl1 : nid ∉ l1 := fun hc => hdisj hc (by simp)
  have hxmem : nextId l2 sent ∈ l2 ∨ nextId l2 sent = sent := by
    cases l2 with
    | nil => exact Or.inr rfl
    | cons c l2' => exact Or.inl (by simp [nextId])
  have hnx : nid ≠ nextId l2 sent := by
    rcases hxmem with hx | hx
    · exact fun hc => hnid_notin (by rw [hc]; exact hx)
    · exact fun hc => hsent_ne_nid (hx.symm.trans hc.symm)
  have hxp : nextId l2 sent ≠ pid := by
    rcases hxmem with hx | hx
    · intro hc
      exact hpid_notin (by rw [← hc]; exact List.mem_cons.mpr (Or.inr hx))
    · intro hc
      exact hsent_ne_pid (hx ▸ hc)
  have hxn_ex : ∃ xn, s.heap.lookupN (nextId l2 sent) = some xn := by
    rcases hxmem with hx | hx
    · exact linked_lookup_mem s.heap _ none vs sent hlink _
        (List.mem_append.mpr (Or.inr (List.mem_cons.mpr (Or.inr (List.mem_cons.mpr
          (Or.inr hx))))))
    · rw [hx]
      exact ⟨_, linked_sentinel s.heap _ none vs sent hlink⟩
  obtain ⟨xn, e5x⟩ := hxn_ex
  have hcomp := erase_eq_unlink s nid pid (nextId l2 sent) node pn0 xn hone
    e1 e2x e3x hnp hnx hxp e4 e5x
  rw [hcomp] at h
  injection h with h2
  have hs' : (⟨((s.heap.write pid ⟨some (nextId l2 sent), pn0.prev_, pn0.data_⟩).write
      (nextId l2 sent) ⟨xn.next_, some pid, xn.data_⟩).free nid,
      s.head_, s.tail_, s.size_ - 1⟩ : CList T) = s' := congrArg Prod.snd h2
  subst hs'
  set W1 : Heap T := s.heap.write pid ⟨some (nextId l2 sent), pn0.prev_, pn0.data_⟩ with hW1
  set W2 : Heap T := W1.write (nextId l2 sent) ⟨xn.next_, some pid, xn.data_⟩ with hW2
  set SH : Heap T := W2.free nid with hSHdef
  -- lookups in the final heap
  have hpres : ∀ id, id ≠ nid → id ≠ pid → id ≠ nextId l2 sent →
      SH.lookupN id = s.heap.lookupN id := by
    intro id hd1 hd2 hd3
    show lookupL (freeL W2.mem nid) id = _
    rw [lookupL_freeL_ne _ _ _ hd1]
    show lookupL (writeL W1.mem (nextId l2 sent) _) id = _
    rw [lookupL_writeL_ne _ _ _ _ hd3]
    exact lookupL_writeL_ne _ _ _ _ hd2
  have hSHpid : ∀ pnX : Node T, s.heap.lookupN pid = some pnX →
      SH.lookupN pid = some ⟨some (nextId l2 sent), pnX.prev_, pnX.data_⟩ := by
    intro pnX hpnX
    rw [e4] at hpnX
    injection hpnX with hpn
    subst hpn
    show lookupL (freeL W2.mem nid) pid = _
    rw [lookupL_freeL_ne _ _ _ (Ne.symm hnp)]
    show lookupL (writeL W1.mem (nextId l2 sent) _) pid = _
    rw [lookupL_writeL_ne _ _ _ _ (Ne.symm hxp)]
    exact lookupL_writeL_self _ _ _ _ e4
  have hSHxid : ∀ xnX : Node T, s.heap.lookupN (nextId l2 sent) = some xnX →
      SH.lookupN (nextId l2 sent) = some ⟨xnX.next_, some pid, xnX.data_⟩ := by
    intro xnX hxnX
    rw [e5x] at hxnX
    injection hxnX with hxn
    subst hxn
    show lookupL (freeL W2.mem nid) (nextId l2 sent) = _
    rw [lookupL_freeL_ne _ _ _ (Ne.symm hnx)]
    have hW1x : W1.lookupN (nextId l2 sent) = some xn := by
      show lookupL (writeL s.heap.mem pid _) (nextId l2 sent) = _
      rw [lookupL_writeL_ne _ _ _ _ hxp]
      exact e5x
    exact lookupL_writeL_self _ _ _ _ hW1x
  have hl2pres : ∀ id ∈ l2, id ≠ nextId l2 sent → SH.lookupN id = s.heap.lookupN id := by
    intro id hid hne
    have hd1 : id ≠ nid := fun hc => hnid_notin (hc ▸ hid)
    have hd2 : id ≠ pid := by
      intro hc
      exact hpid_notin (by rw [← hc]; exact List.mem_cons.mpr (Or.inr hid))
    exact hpres id hd1 hd2 hne
  have hsentpres : sent ≠ nextId l2 sent → SH.lookupN sent = s.heap.lookupN sent :=
    fun hne => hpres sent hsent_ne_nid hsent_ne_pid hne
  have hl1pres : ∀ id ∈ l1, SH.lookupN id = s.heap.lookupN id := by
    intro id hid
    have hnotmid : id ∉ pid :: nid :: l2 := hdisj hid
    have hd1 : id ≠ nid := fun hc => hnotmid (by rw [hc]; simp)
    have hd2 : id ≠ pid := fun hc => hnotmid (by rw [hc]; simp)
    have hd3 : id ≠ nextId l2 sent := by
      rcases hxmem with hx | hx
      · exact fun hc => hnotmid (by rw [hc]; exact List.mem_cons.mpr (Or.inr
          (List.mem_cons.mpr (Or.inr hx))))
      · intro hc
        have : sent ∈ l1 := by rw [← hx, ← hc]; exact hid
        exact hsnotin (List.mem_append.mpr (Or.inl this))
    exact hpres id hd1 hd2 hd3
  obtain ⟨vs', hlen, hlink'⟩ := linked_surgery s.heap SH sent pid nid l2
    hSHpid hSHxid hl2pres hsentpres l1 none vs hlink hnd hl1pres
  -- keys of the final heap
  have hkeysW2 : W2.mem.map Prod.fst = s.heap.mem.map Prod.fst := by
    show (writeL W1.mem (nextId l2 sent) _).map Prod.fst = _
    rw [keys_writeL]
    show (writeL s.heap.mem pid _).map Prod.fst = _
    rw [keys_writeL]
  have hkeysSH : SH.mem.map Prod.fst =
      (s.heap.mem.map Prod.fst).filter (fun x => x != nid) := by
    show (freeL W2.mem nid).map Prod.fst = _
    rw [keys_freeL, hkeysW2]
  have hfilter : ((l1 ++ pid :: nid :: l2) ++ [sent]).filter (fun x => x != nid) =
      (l1 ++ pid :: l2) ++ [sent] := by
    have hf1 : l1.filter (fun x => x != nid) = l1 := filter_ne_eq_self l1 nid hninl1
    have hf2 : l2.filter (fun x => x != nid) = l2 := filter_ne_eq_self l2 nid hnid_notin
    have hbp : (pid != nid) = true := by simp [Ne.symm hnp]
    have hbn : (nid != nid) = false := by simp
    have hbs : (sent != nid) = true := by simp [hsent_ne_nid]
    simp [List.filter_append, List.filter_cons, hf1, hf2, hbp, hbn, hbs]
  have hpermSH : (SH.mem.map Prod.fst).Perm ((l1 ++ pid :: l2) ++ [sent]) := by
    rw [hkeysSH]
    exact (hperm.filter _).trans (by rw [hfilter])
  have hndSH : ((l1 ++ pid :: l2) ++ [sent]).Nodup := by
    refine List.Nodup.sublist ?_ hnd
    refine List.Sublist.append_right ?_ [sent]
    refine List.Sublist.append_left ?_ l1
    exact List.Sublist.cons₂ pid (List.sublist_cons_self nid l2)
  have hfbSH : freshBound SH := by
    intro pr hpr
    have hpr2 : pr ∈ W2.mem := mem_of_mem_freeL _ _ _ hpr
    have hk : pr.1 ∈ W2.mem.map Prod.fst := List.mem_map.mpr ⟨pr, hpr2, rfl⟩
    rw [hkeysW2] at hk
    obtain ⟨pr0, hpr0, hfst⟩ := List.mem_map.mp hk
    show pr.1 < s.heap.fresh
    rw [← hfst]
    exact fb pr0 hpr0
  refine ⟨l1 ++ pid :: l2, vs', nid, rfl, ?_, rfl, rfl, rfl, hnidmem, ?_, ?_, ?_⟩
  · refine ⟨hfbSH, ?_, by simp, ?_, hndSH, hpermSH, hlink'⟩
    · show s.size_ - 1 = vs'.length
      omega
    · show s.head_ = (l1 ++ pid :: l2).head?
      rw [hhead]
      exact headq_append_cons l1 pid (nid :: l2) l2
  · exact lookupL_freeL_self W2.mem nid
  · -- getLast? is unchanged unless the erased node was last
    intro hlast
    cases l2 with
    | nil =>
      exfalso
      apply hlast
      have : (l1 ++ pid :: nid :: ([] : List Nat)) = (l1 ++ [pid]) ++ [nid] := by simp
      rw [this]
      exact getLastq_concat _ nid
    | cons c l2' =>
      rw [getLastq_append_cons l1 pid (c :: l2'),
        getLastq_append_cons l1 pid (nid :: c :: l2'),
        getLastq_cons_of_ne pid (nid :: c :: l2') (by simp),
        getLastq_cons_of_ne pid (c :: l2') (by simp),
        getLastq_cons_of_ne nid (c :: l2') (by simp)]
  · intro d hd
    by_cases hdn : d = nid
    · subst hdn
      exact lookupL_freeL_self W2.mem d
    · have hdp : d ≠ pid := by
        intro hc
        rw [hc, e4] at hd
        exact Option.noConfusion hd
      have hdx : d ≠ nextId l2 sent := by
        intro hc
        rw [hc, e5x] at hd
        exact Option.noConfusion hd
      rw [hpres d hdn hdp hdx]
      exact hd

/-- On `size() == 1`, `erase` never looks at its position argument: it is
exactly `clear` followed by wrapping the (nulled) head in the iterator. -/
theorem erase_size1_eq (s : CList T) (hone : size s = 1) (p : Option Nat) :
    erase s p = (clear s).map (fun s0 => ((none : Option Nat), s0)) := by
  rw [erase.eq_def, if_pos hone]
  cases hc : clear s with
  | none => rfl
  | some s0 =>
    have hh : s0.head_ = none := by
      rw [clear] at hc
      cases hcl : clearLoop s.heap s.head_ with
      | none => rw [hcl] at hc; exact Option.noConfusion hc
      | some h' =>
        rw [hcl] at hc
        simp only [Option.map_some', Option.some.injEq] at hc
        rw [← hc]
    show some (s0.head_, s0) = some (none, s0)
    rw [hh]

/-! ## Closure of `Inv` under every public operation -/

/-- A chain always carries at least one value. -/
theorem chain_vs_ne [Inhabited T] (s : CList T) (ids : List Nat) (sent : Nat)
    (vs : List T) (hch : Chain s ids sent vs) : vs ≠ [] := by
  have hlen := linked_length s.heap ids none vs sent hch.hlink
  intro hc
  subst hc
  cases hids : ids with
  | nil => exact hch.hne hids
  | cons a t => rw [hids] at hlen; simp at hlen

/-- A chain whose `tail_` sits at the last real node is well-formed. -/
theorem chain_wf [Inhabited T] (s : CList T) (ids : List Nat) (sent : Nat)
    (vs : List T) (hch : Chain s ids sent vs) (htail : s.tail_ = ids.getLast?) :
    Wf s vs :=
  ⟨hch.fb, hch.hsize, Or.inr ⟨ids, sent, chain_vs_ne s ids sent vs hch, hch.hne,
    hch.hhead, htail, hch.hnd, hch.hperm, hch.hlink⟩⟩

/-- `Chain` never mentions `tail_`, so it survives replacing that field. -/
theorem chain_retail [Inhabited T] (s : CList T) (ids : List Nat) (sent : Nat)
    (vs : List T) (hch : Chain s ids sent vs) (t : Option Nat) :
    Chain (⟨s.heap, s.head_, t, s.size_⟩ : CList T) ids sent vs :=
  ⟨hch.fb, hch.hsize, hch.hne, hch.hhead, hch.hnd, hch.hperm, hch.hlink⟩

/-- Re-aiming a chain's `tail_` at the last real node yields a well-formed
state (the repaired state that the buggy `erase` should have produced). -/
theorem chain_wf_retail [Inhabited T] (s : CList T) (ids : List Nat) (sent : Nat)
    (vs : List T) (hch : Chain s ids sent vs) :
    Wf (⟨s.heap, s.head_, ids.getLast?, s.size_⟩ : CList T) vs :=
  chain_wf _ ids sent vs (chain_retail s ids sent vs hch ids.getLast?) rfl

/-- Well-formed states satisfy the reachability invariant. -/
theorem wf_inv [Inhabited T] (s : CList T) (vs : List T) (hw : Wf s vs) : Inv s := by
  obtain ⟨fb, hsize, hcase⟩ := hw
  rcases hcase with ⟨hvs, hhead, htail, hmem⟩ |
    ⟨ids, sent, hvs, hids, hhead, htail, hnd, hperm, hlink⟩
  · exact Or.inl ⟨hhead, htail, by rw [hsize, hvs]; rfl, hmem, fb⟩
  · exact Or.inr ⟨ids, sent, vs, ⟨fb, hsize, hids, hhead, hnd, hperm, hlink⟩,
      Or.inl htail⟩

/-- The default-constructed list satisfies the invariant. -/
theorem inv_emptyCL [Inhabited T] : Inv (emptyCL : CList T) :=
  Or.inl ⟨rfl, rfl, rfl, rfl, fun pr hpr => absurd hpr (List.not_mem_nil pr)⟩

/-- On every state satisfying the invariant, `empty()` agrees with
`size() == 0`. -/
theorem inv_empty_iff [Inhabited T] (s : CList T) (hs : Inv s) :
    (empty s = true) ↔ size s = 0 := by
  rcases hs with ⟨hhead, -, hsize, -, -⟩ | ⟨ids, sent, vs, hch, -⟩
  · simp [empty, hhead, size, hsize]
  · obtain ⟨hd, hhd⟩ := Option.isSome_iff_exists.mp (List.head?_isSome.mpr hch.hne)
    have hhead2 : s.head_ = some hd := by rw [hch.hhead, hhd]
    have hvslen : vs.length ≠ 0 := by
      intro hc
      exact chain_vs_ne s ids sent vs hch (List.length_eq_zero.mp hc)
    simp [empty, hhead2, size, hch.hsize, hvslen]

/-- With a dangling `tail_`, the non-empty branch of `push_back` faults on
its very first dereference `tail_->next_`. -/
theorem push_back_fails_dangling [Inhabited T] (s : CList T) (v : T) (hid d : Nat)
    (hhead : s.head_ = some hid) (htail : s.tail_ = some d)
    (hld : s.heap.lookupN d = none) : push_back s v = none := by
  simp [push_back, hhead, htail, hld]

/-- With a dangling `tail_`, `end()` faults reading `tail_->next_`, so the
range constructor (and with it copy construction/assignment) faults too. -/
theorem fromRange_fails_dangling [Inhabited T] (s : CList T) (d : Nat)
    (htd : s.tail_ = some d) (hld : s.heap.lookupN d = none) :
    fromRange s = none := by
  simp [fromRange, endIter, htd, hld]

/-- The non-empty branch of `push_front` never reads `tail_`; it only copies
it into the result, so its outcome commutes with replacing that field. -/
theorem push_front_tail_indep [Inhabited T] (s : CList T) (v : T) (hid : Nat)
    (hhead : s.head_ = some hid) (t : Option Nat) :
    push_front (⟨s.heap, s.head_, t, s.size_⟩ : CList T) v =
      (push_front s v).map fun r => ⟨r.heap, r.head_, t, r.size_⟩ := by
  cases hl : (s.heap.alloc ⟨some hid, none, v⟩).2.lookupN hid with
  | none => simp [push_front, hhead, hl]
  | some hn => simp [push_front, hhead, hl]

/-- Heap effect of a completed non-empty `push_front`: the fresh counter
advances by one and every cell other than the old head and the new node is
untouched. -/
theorem push_front_heap_shape [Inhabited T] (s : CList T) (v : T) (hid : Nat)
    (nd : Node T) (s' : CList T) (hhead : s.head_ = some hid)
    (hL : s.heap.lookupN hid = some nd) (hne : hid ≠ s.heap.fresh)
    (h : push_front s v = some s') :
    s'.heap.fresh = s.heap.fresh + 1 ∧
    ∀ id, id ≠ hid → id ≠ s.heap.fresh → s'.heap.lookupN id = s.heap.lookupN id := by
  rw [push_front_eq_nonempty s v hid nd hhead hL hne] at h
  injection h with h2
  subst h2
  refine ⟨rfl, ?_⟩
  intro id hne1 hne2
  show lookupL (writeL ((s.heap.fresh, _) :: s.heap.mem) hid _) id = _
  rw [lookupL_writeL_ne _ _ _ _ hne1, lookupL_cons_ne _ _ _ _ hne2]
  rfl

/-- `push_back` preserves the invariant whenever it completes. -/
theorem inv_push_back [Inhabited T] (s : CList T) (v : T) (s' : CList T)
    (hs : Inv s) (h : push_back s v = some s') : Inv s' := by
  rcases hs with ⟨hhead, htail, hsize, hmem, fb⟩ | ⟨ids, sent, vs, hch, hdis⟩
  · rw [push_back_eq_empty s v hhead hmem] at h
    injection h with h2
    subst h2
    exact wf_inv _ [v] (wf_bootstrap s v hsize)
  · obtain ⟨hd, hhd⟩ := Option.isSome_iff_exists.mp (List.head?_isSome.mpr hch.hne)
    have hhead2 : s.head_ = some hd := by rw [hch.hhead, hhd]
    rcases hdis with htail | ⟨d, htd, hld, hdf⟩
    · obtain ⟨s3, he3, hw3⟩ := push_back_wf s vs v (chain_wf s ids sent vs hch htail)
      rw [he3] at h
      injection h with h2
      subst h2
      exact wf_inv _ _ hw3
    · rw [push_back_fails_dangling s v hd d hhead2 htd hld] at h
      exact Option.noConfusion h

/-- `push_front` preserves the invariant whenever it completes — including
from a dangling-tail state, where it succeeds and keeps the tail dangling. -/
theorem inv_push_front [Inhabited T] (s : CList T) (v : T) (s' : CList T)
    (hs : Inv s) (h : push_front s v = some s') : Inv s' := by
  rcases hs with ⟨hhead, htail, hsize, hmem, fb⟩ | ⟨ids, sent, vs, hch, hdis⟩
  · rw [push_front_eq_empty s v hhead hmem] at h
    injection h with h2
    subst h2
    exact wf_inv _ [v] (wf_bootstrap s v hsize)
  · obtain ⟨hd, hhd⟩ := Option.isSome_iff_exists.mp (List.head?_isSome.mpr hch.hne)
    have hhead2 : s.head_ = some hd := by rw [hch.hhead, hhd]
    rcases hdis with htail | ⟨d, htd, hld, hdf⟩
    · obtain ⟨s3, he3, hw3⟩ := push_front_wf s vs v (chain_wf s ids sent vs hch htail)
      rw [he3] at h
      injection h with h2
      subst h2
      exact wf_inv _ _ hw3
    · -- dangling tail: run `push_front` on the repaired state and transport.
      have hhd_mem : hd ∈ ids := by
        cases hx : ids with
        | nil => exact absurd hx hch.hne
        | cons a t =>
          rw [hx] at hhd
          injection hhd with hhd2
          rw [← hhd2]
          exact List.mem_cons_self a t
      obtain ⟨nd, hL⟩ :=
        linked_lookup_mem s.heap ids none vs sent hch.hlink hd hhd_mem
      have hhd_lt : hd < s.heap.fresh := lt_fresh_of_lookupN _ _ _ hch.fb hL
      have hdhd : d ≠ hd := by
        intro hc
        rw [hc, hL] at hld
        exact Option.noConfusion hld
      set s2 : CList T := ⟨s.heap, s.head_, ids.getLast?, s.size_⟩ with hs2
      obtain ⟨s3, he3, hw3⟩ :=
        push_front_wf s2 vs v (chain_wf_retail s ids sent vs hch)
      have hhead3 : s2.head_ = some hd := hhead2
      have h2 : ((push_front s2 v).map
          fun r => (⟨r.heap, r.head_, s.tail_, r.size_⟩ : CList T)) = some s' := by
        rw [← push_front_tail_indep s2 v hd hhead3 s.tail_]
        exact h
      rw [he3] at h2
      simp only [Option.map_some'] at h2
      injection h2 with h3
      subst h3
      obtain ⟨hfr3, hpres3⟩ :=
        push_front_heap_shape s2 v hd nd s3 hhead3 hL (Nat.ne_of_lt hhd_lt) he3
      obtain ⟨fb3, hsize3, hcase3⟩ := hw3
      rcases hcase3 with ⟨hvs3, -, -, -⟩ |
        ⟨ids3, sent3, hvs3, hids3, hhead3', htail3, hnd3, hperm3, hlink3⟩
      · exact absurd hvs3 (by simp)
      · refine Or.inr ⟨ids3, sent3, v :: vs,
          ⟨fb3, hsize3, hids3, hhead3', hnd3, hperm3, hlink3⟩, Or.inr ⟨d, ?_, ?_, ?_⟩⟩
        · show s.tail_ = some d
          exact htd
        · show s3.heap.lookupN d = none
          rw [hpres3 d hdhd (Nat.ne_of_lt hdf)]
          exact hld
        · show d < s3.heap.fresh
          rw [hfr3]
          show d < s.heap.fresh + 1
          omega

/-- `clear` preserves the invariant (it never reads `tail_`). -/
theorem inv_clear [Inhabited T] (s s' : CList T)
    (hs : Inv s) (h : clear s = some s') : Inv s' := by
  rcases hs with ⟨hhead, htail, hsize, hmem, fb⟩ | ⟨ids, sent, vs, hch, hdis⟩
  · rw [clear, hhead] at h
    injection h with h2
    subst h2
    exact Or.inl ⟨rfl, rfl, rfl, hmem, fb⟩
  · obtain ⟨s0, hc, hh0, ht0, hs0, hm0, hwf0⟩ := clear_wf
      (⟨s.heap, s.head_, ids.getLast?, s.size_⟩ : CList T) vs
      (chain_wf_retail s ids sent vs hch)
    have hcs : clear s = some s0 := hc
    rw [hcs] at h
    injection h with h2
    subst h2
    exact Or.inl ⟨hh0, ht0, hs0, hm0, hwf0.1⟩

/-- The range constructor (hence copy construction and copy assignment)
preserves the invariant whenever it completes. -/
theorem inv_fromRange [Inhabited T] (s s' : CList T)
    (hs : Inv s) (h : fromRange s = some s') : Inv s' := by
  rcases hs with ⟨hhead, htail, hsize, hmem, fb⟩ | ⟨ids, sent, vs, hch, hdis⟩
  · have hw : Wf s [] := ⟨fb, hsize, Or.inl ⟨rfl, hhead, htail, hmem⟩⟩
    obtain ⟨d0, he, hwd⟩ := fromRange_wf s [] hw
    rw [he] at h
    injection h with h2
    subst h2
    exact wf_inv _ _ hwd
  · rcases hdis with htail | ⟨d, htd, hld, hdf⟩
    · obtain ⟨d0, he, hwd⟩ := fromRange_wf s vs (chain_wf s ids sent vs hch htail)
      rw [he] at h
      injection h with h2
      subst h2
      exact wf_inv _ _ hwd
    · rw [fromRange_fails_dangling s d htd hld] at h
      exact Option.noConfusion h

/-- `erase` preserves the invariant whenever it completes: the singleton
case clears the list, and the unlink case either keeps the tail at the last
real node or leaves it dangling at the freed cell (covered by `Inv`). -/
theorem inv_erase [Inhabited T] (s : CList T) (p r : Option Nat) (s' : CList T)
    (hs : Inv s) (h : erase s p = some (r, s')) : Inv s' := by
  rcases hs with ⟨hhead, htail, hsize, hmem, fb⟩ | ⟨ids, sent, vs, hch, hdis⟩
  · have hone : ¬ size s = 1 := by
      show ¬ s.size_ = 1
      omega
    rw [erase_fails_on_empty_heap s p hone hmem] at h
    exact Option.noConfusion h
  · by_cases hone : size s = 1
    · rw [erase_size1_eq s hone p] at h
      obtain ⟨s0, hc, hh0, ht0, hs0, hm0, hwf0⟩ := clear_wf
        (⟨s.heap, s.head_, ids.getLast?, s.size_⟩ : CList T) vs
        (chain_wf_retail s ids sent vs hch)
      have hcs : clear s = some s0 := hc
      rw [hcs] at h
      simp only [Option.map_some', Option.some.injEq, Prod.mk.injEq] at h
      obtain ⟨-, h2⟩ := h
      subst h2
      exact Or.inl ⟨hh0, ht0, hs0, hm0, hwf0.1⟩
    · obtain ⟨ids', vs', nid, hp, hch', hh', ht', hf', hnmem, hlookn, hlastpres,
        hdangpres⟩ := erase_chain s ids sent vs hch hone p r s' h
      refine Or.inr ⟨ids', sent, vs', hch', ?_⟩
      rcases hdis with htail | ⟨d, htd, hld, hdf⟩
      · by_cases hl : ids.getLast? = some nid
        · refine Or.inr ⟨nid, ?_, hlookn, ?_⟩
          · rw [ht', htail, hl]
          · obtain ⟨n, hn⟩ :=
              linked_lookup_mem s.heap ids none vs sent hch.hlink nid hnmem
            have hlt := lt_fresh_of_lookupN s.heap nid n hch.fb hn
            rw [hf']
            exact hlt
        · refine Or.inl ?_
          rw [ht', htail]
          exact (hlastpres hl).symm
      · refine Or.inr ⟨d, ?_, hdangpres d hld, ?_⟩
        · rw [ht', htd]
        · rw [hf']
          exact hdf

/-- Concrete list builder used by the finite examples and witnesses. -/
def mkListB (vs : List Nat) : CList Nat := (buildB vs).getD emptyCL

/-! ## The claims -/

/-- Claim C1: starting from an empty list, `push_back(1); push_back(2);
push_back(3)` yields forward iteration `[1,2,3]` with `size()==3`; the claim
then asserts `erase(begin())` yields `[2,3]` with the returned iterator at
`2`, but the code dereferences the head node's null `prev_` pointer there,
so the erase call faults instead (evaluated here: it returns `none`). -/
theorem c1_push_back_three_erase_begin_faults :
    ((buildB ([1, 2, 3] : List Nat)).map fun s =>
      (traverse s, size s, erase s (begin s))) = some (some [1, 2, 3], 3, none) := by
  rfl

/-- Claim C2: the claim asserts that after `erase` of the last real element
the tail refers to the new last real node; in the code `erase` never updates
`tail_`, so on the list `[1,2]` (node ids 0,1, sentinel 2) erasing node 1
leaves `tail_ = 1` pointing at the freed cell (its lookup is `none`), while
the remaining real node is id 0. -/
theorem c2_erase_tail_leaves_dangling_tail :
    ((buildB ([1, 2] : List Nat)).bind fun s =>
      (erase s (some 1)).map fun r =>
        (r.1, r.2.tail_, r.2.heap.lookupN 1, r.2.head_, r.2.size_)) =
      some (some 2, some 1, none, some 0, 1) := by
  rfl

/-- Claim C3: the claim asserts `erase` works at every real node of a list
with `size() >= 2`; at the head position the code dereferences
`node->prev_ == nullptr`, so `erase(begin())` on `[1,2]` faults (returns
`none`) instead of completing with size 1. -/
theorem c3_erase_head_of_two_faults :
    ((buildB ([1, 2] : List Nat)).map fun s => (size s, erase s (begin s))) =
      some (2, none) := by
  rfl

/-- Claim C4, counterexample: move assignment swaps states, so with
destination `[7]` and source `[1]`, after `dst = std::move(src)` the source
holds `[7]` and is not empty — contradicting "the source satisfies
`empty()==true`" for move assignment. -/
theorem c4_move_assign_source_not_empty :
    ((buildB ([7] : List Nat)).bind fun d => (buildB [1]).map fun s =>
      (empty (move_assign d s).2, traverse (move_assign d s).2)) =
      some (false, some [7]) := by
  rfl

/-- Claim C4 (amended): move construction leaves the source empty and gives
the destination the source's original sequence and size; move assignment
between distinct lists exchanges the two states — the destination holds the
source's original sequence and size, while the source holds the destination's
former sequence and size, hence the source is empty afterwards iff the
destination was empty before. -/
theorem c4_move_semantics [Inhabited T] (src dst : CList T) (vs ws : List T)
    (hs : Wf src vs) (hd : Wf dst ws) :
    (traverse (move_ctor src).1 = some vs ∧ size (move_ctor src).1 = vs.length ∧
      empty (move_ctor src).2 = true ∧ size (move_ctor src).2 = 0) ∧
    (traverse (move_assign dst src).1 = some vs ∧
      size (move_assign dst src).1 = vs.length ∧
      traverse (move_assign dst src).2 = some ws ∧
      size (move_assign dst src).2 = ws.length ∧
      ((empty (move_assign dst src).2 = true) ↔ ws = [])) := by
  refine ⟨⟨?_, ?_, rfl, rfl⟩, ?_, ?_, ?_, ?_, ?_⟩
  · exact traverse_wf src vs hs
  · exact hs.2.1
  · exact traverse_wf src vs hs
  · exact hs.2.1
  · exact traverse_wf dst ws hd
  · exact hd.2.1
  · exact (wf_empty_iff dst ws hd).2

/-- Witness for C4 at destination `[7]`, source `[1]`. -/
theorem c4_move_semantics_witness :
    (traverse (move_ctor (mkListB [1])).1 = some [1] ∧
      size (move_ctor (mkListB [1])).1 = [1].length ∧
      empty (move_ctor (mkListB [1])).2 = true ∧ size (move_ctor (mkListB [1])).2 = 0) ∧
    (traverse (move_assign (mkListB [7]) (mkListB [1])).1 = some [1] ∧
      size (move_assign (mkListB [7]) (mkListB [1])).1 = [1].length ∧
      traverse (move_assign (mkListB [7]) (mkListB [1])).2 = some [7] ∧
      size (move_assign (mkListB [7]) (mkListB [1])).2 = [7].length ∧
      ((empty (move_assign (mkListB [7]) (mkListB [1])).2 = true) ↔ ([7] : List Nat) = [])) :=
  c4_move_semantics (mkListB [1]) (mkListB [7]) [1] [7]
    (wf_of_buildB [1] _ rfl) (wf_of_buildB [7] _ rfl)

/-- Claim C5: for every value sequence v1..vn, pushing them with `push_back`
onto an empty list succeeds, forward iteration visits exactly v1..vn in
order, and `size() == n`. -/
theorem c5_push_back_sequence [Inhabited T] (vs : List T) :
    ∃ s, buildB vs = some s ∧ traverse s = some vs ∧ size s = vs.length := by
  obtain ⟨s, he, hw⟩ := buildB_wf vs
  exact ⟨s, he, traverse_wf s vs hw, hw.2.1⟩

/-- Claim C6: for every value sequence v1..vn, pushing them with
`push_front` onto an empty list succeeds, forward iteration visits vn..v1
(reverse call order), and `size() == n`. -/
theorem c6_push_front_sequence [Inhabited T] (vs : List T) :
    ∃ s, buildF vs = some s ∧ traverse s = some vs.reverse ∧ size s = vs.length := by
  obtain ⟨s, he, hw⟩ := buildF_wf vs
  refine ⟨s, he, traverse_wf s vs.reverse hw, ?_⟩
  show s.size_ = vs.length
  simpa using hw.2.1

/-- Claim C7: on a list with exactly one real element, `erase` at the
iterator to that element leaves the list empty with `size() == 0` and
returns an iterator wrapping the now-null head, equal to the empty list's
`end()`. -/
theorem c7_erase_singleton [Inhabited T] (s : CList T) (v : T) (hw : Wf s [v]) :
    ∃ s', erase s s.head_ = some ((none : Option Nat), s') ∧
      empty s' = true ∧ size s' = 0 ∧ endIter s' = some none := by
  have hone : s.size_ = 1 := by simpa using hw.2.1
  obtain ⟨s', he, hh, hs0, hwf, hend⟩ := erase_singleton_wf s [v] hw hone s.head_
  exact ⟨s', he, by simp [empty, hh], hs0, hend⟩

/-- Witness for C7 on the singleton list `[5]`. -/
theorem c7_erase_singleton_witness :
    ∃ s', erase (mkListB [5]) (mkListB [5]).head_ = some ((none : Option Nat), s') ∧
      empty s' = true ∧ size s' = 0 ∧ endIter s' = some none :=
  c7_erase_singleton (mkListB [5]) 5 (wf_of_buildB [5] _ rfl)

/-- Claim C8: constructing a list from the range (other.begin(),
other.end()) reproduces other's element sequence with the same size, with
other unchanged. -/
theorem c8_range_ctor_round_trip [Inhabited T] (s : CList T) (vs : List T) (hw : Wf s vs) :
    ∃ d, fromRange s = some d ∧ traverse d = some vs ∧ size d = vs.length ∧
      traverse s = some vs := by
  obtain ⟨d, he, hwd⟩ := fromRange_wf s vs hw
  exact ⟨d, he, traverse_wf d vs hwd, hwd.2.1, traverse_wf s vs hw⟩

/-- Witness for C8 on the list `[3,4]`. -/
theorem c8_range_ctor_round_trip_witness :
    ∃ d, fromRange (mkListB [3, 4]) = some d ∧ traverse d = some [3, 4] ∧
      size d = [3, 4].length ∧ traverse (mkListB [3, 4]) = some [3, 4] :=
  c8_range_ctor_round_trip (mkListB [3, 4]) [3, 4] (wf_of_buildB [3, 4] _ rfl)

/-- Claim C9: whenever `size() == 1`, `erase` never inspects its position
argument: it clears the list and returns an iterator wrapping null,
regardless of which node (null, sentinel, or foreign) the argument wraps. -/
theorem c9_erase_size1_ignores_position (s : CList T) (hone : size s = 1)
    (p q : Option Nat) :
    erase s p = (clear s).map (fun s0 => ((none : Option Nat), s0)) ∧
      erase s p = erase s q :=
  ⟨erase_size1_eq s hone p, (erase_size1_eq s hone p).trans (erase_size1_eq s hone q).symm⟩

/-- Witness for C9 on the singleton list `[5]` with positions 99 and null. -/
theorem c9_erase_size1_ignores_position_witness :
    erase (mkListB [5]) (some 99) =
      (clear (mkListB [5])).map (fun s0 => ((none : Option Nat), s0)) ∧
    erase (mkListB [5]) (some 99) = erase (mkListB [5]) none :=
  c9_erase_size1_ignores_position (mkListB [5]) (by decide) (some 99) none

/-- Claim C10: after every public operation that completes (default and
range/copy construction, push_back, push_front, erase, clear, move
construction, copy and move assignment), `empty()` returns true iff
`size()` returns 0.  The hypothesis is the reachability invariant `Inv`,
which holds for the default-constructed list, follows from well-formedness,
and — unlike `Wf` — is preserved by the buggy `erase` (which may leave
`tail_` dangling at the freed last node): each operation clause returns
`Inv` for the result, so the equivalence holds along every legal usage
sequence, including the non-well-formed states reachable through `erase`. -/
theorem c10_empty_iff_size_zero [Inhabited T] (s : CList T) (hs : Inv s) :
    (Inv (emptyCL : CList T) ∧
      ((empty (emptyCL : CList T) = true) ↔ size (emptyCL : CList T) = 0)) ∧
    ((empty s = true) ↔ size s = 0) ∧
    (∀ (v : T) (s' : CList T), push_back s v = some s' →
      Inv s' ∧ ((empty s' = true) ↔ size s' = 0)) ∧
    (∀ (v : T) (s' : CList T), push_front s v = some s' →
      Inv s' ∧ ((empty s' = true) ↔ size s' = 0)) ∧
    (∀ (p r : Option Nat) (s' : CList T), erase s p = some (r, s') →
      Inv s' ∧ ((empty s' = true) ↔ size s' = 0)) ∧
    (∀ s' : CList T, clear s = some s' →
      Inv s' ∧ ((empty s' = true) ↔ size s' = 0)) ∧
    (∀ s' : CList T, fromRange s = some s' →
      Inv s' ∧ ((empty s' = true) ↔ size s' = 0)) ∧
    (Inv (move_ctor s).1 ∧
      ((empty (move_ctor s).1 = true) ↔ size (move_ctor s).1 = 0)) ∧
    (Inv (move_ctor s).2 ∧
      ((empty (move_ctor s).2 = true) ↔ size (move_ctor s).2 = 0)) ∧
    (∀ t : CList T, Inv t →
      (Inv (move_assign t s).1 ∧
        ((empty (move_assign t s).1 = true) ↔ size (move_assign t s).1 = 0)) ∧
      (Inv (move_assign t s).2 ∧
        ((empty (move_assign t s).2 = true) ↔ size (move_assign t s).2 = 0)) ∧
      (∀ s' : CList T, copy_assign t s = some s' →
        Inv s' ∧ ((empty s' = true) ↔ size s' = 0))) := by
  have step : ∀ u : CList T, Inv u → Inv u ∧ ((empty u = true) ↔ size u = 0) :=
    fun u hu => ⟨hu, inv_empty_iff u hu⟩
  refine ⟨step emptyCL inv_emptyCL, inv_empty_iff s hs, ?_, ?_, ?_, ?_, ?_, ?_, ?_, ?_⟩
  · exact fun v s' h => step s' (inv_push_back s v s' hs h)
  · exact fun v s' h => step s' (inv_push_front s v s' hs h)
  · exact fun p r s' h => step s' (inv_erase s p r s' hs h)
  · exact fun s' h => step s' (inv_clear s s' hs h)
  · exact fun s' h => step s' (inv_fromRange s s' hs h)
  · exact step (move_ctor s).1 hs
  · exact step (move_ctor s).2 inv_emptyCL
  · intro t ht
    exact ⟨step (move_assign t s).1 hs, step (move_assign t s).2 ht,
      fun s' h => step s' (inv_fromRange s s' hs h)⟩

/-- Witness for C10 on the list `[1]` (base equivalence and the `push_back`
clause at value 9, with the invariant supplied for the concrete state). -/
theorem c10_empty_iff_size_zero_witness :
    ((empty (mkListB [1]) = true) ↔ size (mkListB [1]) = 0) ∧
    (Inv ((push_back (mkListB [1]) 9).getD emptyCL) ∧
      ((empty ((push_back (mkListB [1]) 9).getD emptyCL) = true) ↔
        size ((push_back (mkListB [1]) 9).getD emptyCL) = 0)) :=
  ⟨(c10_empty_iff_size_zero (mkListB [1]) (wf_inv _ [1] (wf_of_buildB [1] _ rfl))).2.1,
   (c10_empty_iff_size_zero (mkListB [1])
      (wf_inv _ [1] (wf_of_buildB [1] _ rfl))).2.2.1 9 _ rfl⟩

end Csc
